import Mathlib

/-!
Verification of the marching-squares thread pipeline (src/tema1_par.c).

The development shallowly embeds the C program: machine integers (`long`)
become `ℤ`, IEEE-754 binary64 (`double`) values become exact
significand/exponent pairs together with an explicit
round-to-nearest-ties-to-even operation (`roundQ`), pixel buffers become
functions from flat indices to pixels, and each parallel stage becomes an
explicit list of write events folded over the shared buffer (`applyW`),
so that any interleaving of the threads' disjoint writes is a
permutation of that list.
-/

set_option maxRecDepth 8000

namespace MarchingSquares

/-! ### Generic write-event machinery

Each parallel stage of the program is a set of single-location writes.
`upd` is one store; `applyW` executes a list of write events in order.
The key lemma `applyW_eq` shows the result only depends on the set of
written locations whenever the written value is determined by the
location, which is what makes the stages interleaving-independent. -/

def upd {ι α : Type} [DecidableEq ι] (f : ι → α) (a : ι) (v : α) : ι → α :=
  fun x => if x = a then v else f x

def applyW {ε ι α : Type} [DecidableEq ι] (loc : ε → ι) (val : ε → α) :
    List ε → (ι → α) → (ι → α)
  | [], f => f
  | e :: es, f => applyW loc val es (upd f (loc e) (val e))



/-- Integer interval [a, a+n) as a list, in ascending order: the index
set a C `for (i = a; i < a + n; ++i)` loop walks. -/
def rangeList (a : ℤ) (n : ℕ) : List ℤ :=
  (List.range n).map (fun k : ℕ => a + (k : ℤ))


/-! ### Exact model of IEEE-754 binary64 arithmetic

`thread_get_slice` computes with C `double`s.  A binary64 value in the
normal range is an exact rational of the form `m * 2 ^ e`; we represent
it by the pair `⟨m, e⟩` (type `D`).  Each arithmetic operation of the
program (conversion from `long`, division, multiplication, comparison,
truncating conversion back to `long`) is modelled by computing the exact
rational result and rounding it to 53 significand bits, to nearest, ties
to even — which is bit-exact IEEE-754 behaviour on the nonnegative
normal-range values the program manipulates (no overflow, underflow,
NaNs or negatives ever arise in `thread_get_slice` for the argument
ranges the program calls it with). -/

/-- Fuel-driven binary logarithm on ℕ (structural recursion so that the
kernel can evaluate it); `log2fuel f n = ⌊log₂ n⌋` whenever `n < 2 ^ f`. -/
def log2fuel : ℕ → ℕ → ℕ
  | 0, _ => 0
  | f + 1, n => if 2 ≤ n then log2fuel f (n / 2) + 1 else 0


/-- Floor of log₂ of the positive fraction `a / b`, computed with pure ℕ
arithmetic (1024 bits of headroom is far beyond any value the program
produces). -/
def ilog2Frac (a b : ℕ) : ℤ :=
  let e0 : ℤ := (log2fuel 1024 a : ℤ) - (log2fuel 1024 b : ℤ)
  if b * 2 ^ e0.toNat ≤ a * 2 ^ (-e0).toNat then e0 else e0 - 1

/-- Mathematical round-to-nearest-integer with ties to even (the
specification the 53-bit significand rounding of `roundPos` follows). -/
def rni (x : ℚ) : ℤ :=
  if x - ⌊x⌋ < 1 / 2 then ⌊x⌋
  else if 1 / 2 < x - ⌊x⌋ then ⌊x⌋ + 1
  else if ⌊x⌋ % 2 = 0 then ⌊x⌋ else ⌊x⌋ + 1

/-- Binary64 value `m * 2 ^ e` (significand and binary exponent, not
necessarily normalized; the rounding below produces `m ∈ [2^52, 2^53]`). -/
structure D where
  m : ℤ
  e : ℤ
deriving DecidableEq, Repr

/-- Exact rational value of a binary64 (used only in specifications). -/
def D.toQ (d : D) : ℚ := (d.m : ℚ) * 2 ^ d.e

/-- Round the positive fraction `a / b` (with `a, b ≥ 1`) to a binary64:
find the ulp exponent, split into quotient and remainder, and round the
53-bit significand to nearest with ties to even. -/
def roundPos (a b : ℕ) : D :=
  let e : ℤ := ilog2Frac a b
  let u : ℤ := e - 52
  let num := a * 2 ^ (-u).toNat
  let den := b * 2 ^ u.toNat
  let m0 := num / den
  let r := num % den
  let m := if 2 * r < den then m0 else if den < 2 * r then m0 + 1
           else if m0 % 2 = 0 then m0 else m0 + 1
  ⟨(m : ℤ), u⟩

/-- Round the rational `a / b` to binary64.  The program only ever forms
nonnegative values with positive denominators; other inputs (never
reached) are collapsed to zero. -/
def roundQ (a b : ℤ) : D :=
  if a ≤ 0 ∨ b ≤ 0 then ⟨0, 0⟩ else roundPos a.toNat b.toNat

/-- C conversion `(double) n` of a `long`: `n` rounded to binary64. -/
def dofInt (n : ℤ) : D := roundQ n 1

/-- C `double` division: exact quotient, then one rounding. -/
def ddiv (x y : D) : D :=
  let k := x.e - y.e
  roundQ (x.m * 2 ^ k.toNat) (y.m * 2 ^ (-k).toNat)

/-- C `double` multiplication: exact product, then one rounding. -/
def dmul (x y : D) : D :=
  let e := x.e + y.e
  roundQ (x.m * y.m * 2 ^ e.toNat) (2 ^ (-e).toNat)

/-- C `double` comparison `x < y` (IEEE comparisons are exact). -/
def D.blt (x y : D) : Bool :=
  let em := min x.e y.e
  decide (x.m * 2 ^ (x.e - em).toNat < y.m * 2 ^ (y.e - em).toNat)

/-- C conversion `(long) x` of a `double`: truncation toward zero (the
program only converts nonnegative values, where truncation is floor). -/
def D.trunc (d : D) : ℤ :=
  if 0 ≤ d.e then d.m * 2 ^ d.e.toNat
  else d.m.sign * ((d.m.natAbs / 2 ^ (-d.e).toNat : ℕ) : ℤ)

/-! ### thread_get_slice (src/tema1_par.c lines 62-70)

```c
static inline thread_slice thread_get_slice(const long tid,
                                     const long nthreads,
                                     const long range) {
    const double ratio = (double) range / (double) nthreads;
    return (thread_slice) {
        .start = tid * ratio,
        .end   = MIN((tid + 1) * ratio, range)
    };
}
```
with `MIN(a, b) = ((a) < (b) ? (a) : (b))`.  In `tid * ratio` the `long`
`tid` is promoted to `double`, the product is rounded once, and the
assignment to the `long` field truncates toward zero.  In `MIN`,
`range` is promoted to `double` and the comparison and selection happen
on doubles before the truncating assignment to `.end`. -/

structure Slice where
  start : ℤ
  /-- the `end` field of `thread_slice` (`end` is a Lean keyword) -/
  stop : ℤ
deriving DecidableEq, Repr

def thread_get_slice (tid nthreads range : ℤ) : Slice :=
  let ratio : D := ddiv (dofInt range) (dofInt nthreads)
  let a : D := dmul (dofInt (tid + 1)) ratio
  let dr : D := dofInt range
  { start := (dmul (dofInt tid) ratio).trunc
    stop := (if D.blt a dr then a else dr).trunc }

/-- Membership of an index in a slice (the C loops run
`for (i = slice.start; i < slice.end; ++i)`). -/
def inSlice (x : ℤ) (s : Slice) : Prop := s.start ≤ x ∧ x < s.stop

instance (x : ℤ) (s : Slice) : Decidable (inSlice x s) := by
  unfold inSlice; infer_instance

/-- Index `x` is covered by some of the `T` threads' slices for range `N`. -/
def coveredBy (T : ℕ) (N x : ℤ) : Prop :=
  ∃ t ∈ Finset.range T, inSlice x (thread_get_slice t T N)

instance (T : ℕ) (N x : ℤ) : Decidable (coveredBy T N x) := by
  unfold coveredBy; infer_instance

/-- List of all slices handed to threads `0 .. T-1` for range `N`,
paired with the thread ordinal. -/
def slicePairs (T : ℕ) (N : ℤ) : List (ℕ × Slice) :=
  (List.range T).map fun t => (t, thread_get_slice t T N)

/-- Exact-integer-arithmetic slice contract claimed by the specification:
`start = ⌊tid·N / T⌋`, `end = min (⌊(tid+1)·N / T⌋) N`. -/
def sliceSpec (tid nthreads range : ℤ) : Slice :=
  { start := Int.ediv (tid * range) nthreads
    stop := min (Int.ediv ((tid + 1) * range) nthreads) range }

/-- Combined decidable check on the family of slices for `(T, N)`: the
slices agree with the exact integer contract `sliceSpec`, they tile
`[0, N)` (first starts at 0, adjacent slices are contiguous, last stops
at `N`, starts never exceed stops), and slice sizes pairwise differ by
at most one element. -/
def sliceChecks (T : ℕ) (N : ℤ) : Bool :=
  let ps := slicePairs T N
  let ss := ps.map Prod.snd
  (ps.all fun p => decide (p.2 = sliceSpec p.1 T N)) &&
  (ss.all fun s => decide (s.start ≤ s.stop)) &&
  (match ss.head? with | some s => decide (s.start = 0) | none => true) &&
  (match ss.getLast? with | some s => decide (s.stop = N) | none => true) &&
  ((ss.zip ss.tail).all fun p => decide (p.1.stop = p.2.start)) &&
  (let sizes := ss.map fun s => s.stop - s.start
   sizes.all fun a => sizes.all fun b => decide (a - b ≤ 1))

/-- Decidable statement that the `T` slices for range `N` tile `[0, N)`:
first slice starts at 0, consecutive slices are contiguous, starts never
exceed stops, and the last slice stops at `N`. -/
def tilesRange (T : ℕ) (N : ℤ) : Bool :=
  decide ((thread_get_slice 0 T N).start = 0) &&
  decide ((thread_get_slice ((T : ℕ) - 1 : ℕ) T N).stop = N) &&
  ((List.range T).all fun t =>
    decide ((thread_get_slice t T N).start ≤ (thread_get_slice t T N).stop)) &&
  ((List.range T).all fun t =>
    decide (t + 1 = T ∨
      (thread_get_slice t T N).stop = (thread_get_slice ((t : ℕ) + 1 : ℕ) T N).start))

/-! ### Image model and compiled-in constants

`helpers.h` (not part of this repository's sources) supplies the pixel
type, the `ppm_image` type and the constants `RESCALE_X`/`RESCALE_Y`;
`read_ppm`, `write_ppm` and `sample_bicubic` are external collaborators.
Modelled from the spec: the image codec yields a width × height pixel
buffer of RGB byte triples, the target rescale resolution is a fixed
compiled-in constant (2048 × 2048, matching the repository's
`#define RESCALE 2048`), and the resampler is a deterministic pure
function of the source image and the output pixel index.  A pixel buffer
is a total function from flat indices; the program addresses pixel
`(a, b)` of an image as `data[a * image->y + b]`. -/

def CONTOUR_CONFIG_COUNT : ℤ := 16
def STEP : ℤ := 8
def SIGMA : ℕ := 200
def RESCALE_X : ℤ := 2048
def RESCALE_Y : ℤ := 2048

structure ppm_pixel where
  red : ℕ
  green : ℕ
  blue : ℕ
deriving DecidableEq, Repr

structure ppm_image where
  x : ℤ
  y : ℤ
  data : ℤ → ppm_pixel

/-- Luminance as the code computes it:
`(curr_pix.red + curr_pix.green + curr_pix.blue) / 3` (exact on bytes,
the `unsigned char` sum is promoted to `int` before dividing). -/
def lum (px : ppm_pixel) : ℕ := (px.red + px.green + px.blue) / 3

/-- Elements of one slice, in ascending loop order. -/
def sliceList (s : Slice) : List ℤ := rangeList s.start (s.stop - s.start).toNat

/-- Thread ordinals `0 .. T-1`, the order in which `main` creates them
(only membership matters: `applyW_perm` shows any interleaving of the
threads' writes produces the same result). -/
def threadList (T : ℤ) : List ℤ := rangeList 0 T.toNat

/-! ### init_cmap (src/tema1_par.c lines 72-82)

```c
void init_cmap(ppm_image **const cmap, const long tid, const long nthreads) {
    const thread_slice slice = thread_get_slice(tid, nthreads, CONTOUR_CONFIG_COUNT);
    for (long i = slice.start; i < slice.end; ++i) {
        char filename[FILENAME_MAX_SIZE];
        sprintf(filename, "./contours/%ld.ppm", i);
        cmap[i] = read_ppm(filename);
    }
}
```
`read_ppm` of glyph file `i` is the external parameter `glyphFile i`. -/

def init_cmap_list (glyphFile : ℤ → ppm_image) (T : ℤ) : List (ℤ × ppm_image) :=
  (threadList T).flatMap fun tid =>
    (sliceList (thread_get_slice tid T CONTOUR_CONFIG_COUNT)).map fun i =>
      (i, glyphFile i)

/-- Contents of the `cmap` array after the glyph-population stage:
`none` marks entries no thread wrote (uninitialized pointers). -/
def init_cmap (glyphFile : ℤ → ppm_image) (T : ℤ) : ℤ → Option ppm_image :=
  applyW Prod.fst (fun e => some e.2) (init_cmap_list glyphFile T) (fun _ => none)

/-! ### rescale_image (src/tema1_par.c lines 84-107)

```c
void rescale_image(ppm_image *const image, ppm_image *const scaled,
                   const long tid, const long nthreads) {
    if (image->x <= RESCALE_X && image->y <= RESCALE_Y) { return; }
    uint8_t sample[3];
    scaled->x = RESCALE_X;
    scaled->y = RESCALE_Y;
    const thread_slice slice = thread_get_slice(tid, nthreads, RESCALE_X * RESCALE_Y);
    for (long i = slice.start; i < slice.end; ++i) {
        sample_bicubic(image, (float)(i / RESCALE_Y) / (RESCALE_X - 1),
                      (float)(i % RESCALE_Y) / (RESCALE_Y - 1), sample);
        scaled->data[i] = *((ppm_pixel *) sample);
    }
}
```
The bicubic filter and the float coordinates passed to it are external
(out of the spec's scope); since both normalized coordinates are a fixed
deterministic function of `i` alone, the pixel stored at index `i` is
`resample image i` for an abstract pure `resample`. -/

/-- Guard of the early return: the source already fits the target
resolution. -/
def fits (image : ppm_image) : Bool :=
  decide (image.x ≤ RESCALE_X) && decide (image.y ≤ RESCALE_Y)

def rescale_list (image : ppm_image) (resample : ppm_image → ℤ → ppm_pixel)
    (T : ℤ) : List (ℤ × ppm_pixel) :=
  (threadList T).flatMap fun tid =>
    (sliceList (thread_get_slice tid T (RESCALE_X * RESCALE_Y))).map fun i =>
      (i, resample image i)

/-- Effect of all `T` threads' `rescale_image` calls on the scaled
buffer: the early return leaves it untouched; otherwise every thread
first stores the target dimensions and then fills its pixel slice. -/
def rescale_image (image scaled : ppm_image)
    (resample : ppm_image → ℤ → ppm_pixel) (T : ℤ) : ppm_image :=
  if fits image then scaled
  else { x := RESCALE_X, y := RESCALE_Y
         data := applyW Prod.fst Prod.snd (rescale_list image resample T) scaled.data }

/-! ### sample_grid (src/tema1_par.c lines 109-144)

```c
void sample_grid(unsigned char **const grid, const ppm_image *const image,
                 const long tid, const long nthreads) {
    const long p = image->x / STEP;
    const long q = image->y / STEP;
    const thread_slice slice = thread_get_slice(tid, nthreads, p);
    for (long i = slice.start; i < slice.end; ++i) {
        grid[i] = malloc((q + 1) * sizeof(unsigned char));
        curr_pix = image->data[i * STEP * image->y + image->x - 1];
        curr_col = (curr_pix.red + curr_pix.green + curr_pix.blue) / 3;
        grid[i][q] = curr_col <= SIGMA;
        for (long j = 0; j < q; ++j) {
            curr_pix = image->data[i * STEP * image->y + j * STEP];
            curr_col = (curr_pix.red + curr_pix.green + curr_pix.blue) / 3;
            grid[i][j] = curr_col <= SIGMA;
        }
    }
    // Task reserved for the thread having the last slice of the range
    if (tid == nthreads - 1) {
        grid[p] = malloc((q + 1) * sizeof(unsigned char));
        for (long j = 0; j < q; ++j) {
            curr_pix = image->data[(image->x - 1) * image->y + j * STEP];
            curr_col = (curr_pix.red + curr_pix.green + curr_pix.blue) / 3;
            grid[p][j] = curr_col <= SIGMA;
        }
    }
}
```
Each write event carries its cell and the value the generating loop
stores there; cells never written stay `none` (malloc leaves them
uninitialized — in particular `grid[p][q]` is written by no loop). -/

def sample_grid_list (image : ppm_image) (T : ℤ) : List ((ℤ × ℤ) × Bool) :=
  let p := image.x / STEP
  let q := image.y / STEP
  (threadList T).flatMap fun tid =>
    ((sliceList (thread_get_slice tid T p)).flatMap fun i =>
      ((i, q), decide (lum (image.data (i * STEP * image.y + image.x - 1)) ≤ SIGMA)) ::
      ((rangeList 0 q.toNat).map fun j =>
        ((i, j), decide (lum (image.data (i * STEP * image.y + j * STEP)) ≤ SIGMA)))) ++
    (if tid = T - 1 then
      (rangeList 0 q.toNat).map fun j =>
        ((p, j), decide (lum (image.data ((image.x - 1) * image.y + j * STEP)) ≤ SIGMA))
     else [])

def sample_grid (image : ppm_image) (T : ℤ) : ℤ × ℤ → Option Bool :=
  applyW Prod.fst (fun e => some e.2) (sample_grid_list image T) (fun _ => none)

/-- Value the sampling stage stores at cell `c` (by the formula of
whichever loop writes that cell; row `p` is written only by the reserved
task, column `q` of each sampled row by the pre-loop statement). -/
def gridCellVal (image : ppm_image) (c : ℤ × ℤ) : Bool :=
  if c.1 = image.x / STEP then
    decide (lum (image.data ((image.x - 1) * image.y + c.2 * STEP)) ≤ SIGMA)
  else if c.2 = image.y / STEP then
    decide (lum (image.data (c.1 * STEP * image.y + image.x - 1)) ≤ SIGMA)
  else
    decide (lum (image.data (c.1 * STEP * image.y + c.2 * STEP)) ≤ SIGMA)

/-- Set of grid cells some thread writes: the sampled rows of the
covered column indices (cells `0..q` of each), plus row `p` (cells
`0..q-1`) written by the reserved last-thread task. -/
def gridWritten (image : ppm_image) (T : ℤ) (c : ℤ × ℤ) : Prop :=
  (coveredBy T.toNat (image.x / STEP) c.1 ∧ 0 ≤ c.2 ∧ c.2 ≤ image.y / STEP) ∨
  (c.1 = image.x / STEP ∧ 0 ≤ c.2 ∧ c.2 < image.y / STEP ∧ 1 ≤ T)

instance (image : ppm_image) (T : ℤ) (c : ℤ × ℤ) : Decidable (gridWritten image T c) := by
  unfold gridWritten
  infer_instance

/-! ### march and march_update (src/tema1_par.c lines 146-185)

```c
static inline void march_update(ppm_image *const image, const ppm_image *const c,
                         const long x, const long y) {
    int idx_i, idx_c;
    for (int i = 0; i < c->x; ++i) {
        for (int j = 0; j < c->y; ++j) {
            idx_c = c->x * i + j;
            idx_i = (x + i) * image->y + y + j;
            image->data[idx_i].red   = c->data[idx_c].red;
            image->data[idx_i].green = c->data[idx_c].green;
            image->data[idx_i].blue  = c->data[idx_c].blue;
        }
    }
}

void march(ppm_image *const image, unsigned char *const *const grid,
           ppm_image *const *const cmap, const long tid, const long nthreads) {
    const long p = image->x / STEP;
    const long q = image->y / STEP;
    const thread_slice slice = thread_get_slice(tid, nthreads, p);
    unsigned char k;
    for (long i = slice.start; i < slice.end; ++i) {
        for (long j = 0; j < q; ++j) {
            k = 8 * grid[i][j] + 4 * grid[i][j + 1]
              + 2 * grid[i + 1][j + 1] + grid[i + 1][j];
            march_update(image, cmap[k], i * STEP, j * STEP);
        }
    }
}
```
`march` dereferences grid cells and `cmap` entries unconditionally; a
read of a cell or entry that the earlier stages never wrote observes
whatever the allocation left there, modelled by the explicit `gridJunk`
and `cmapJunk` parameters (and by `march_k`, which returns `none` on
such a read). -/

/-- Write events of one `march_update(image, c, x, y)` call, in loop
order. -/
def march_update_list (image c : ppm_image) (x y : ℤ) : List (ℤ × ppm_pixel) :=
  (rangeList 0 c.x.toNat).flatMap fun i =>
    (rangeList 0 c.y.toNat).map fun j =>
      ((x + i) * image.y + (y + j), c.data (c.x * i + j))

/-- Value of grid cell `c` as the `march` stage reads it: the value the
sampling stage wrote, or the uninitialized contents `junk c` if no
thread ever wrote that cell. -/
def gridRead (g : ℤ × ℤ → Option Bool) (junk : ℤ × ℤ → Bool) (c : ℤ × ℤ) : Bool :=
  (g c).getD (junk c)

/-- Configuration index of cell `(i, j)`:
`k = 8·grid[i][j] + 4·grid[i][j+1] + 2·grid[i+1][j+1] + grid[i+1][j]`. -/
def march_k_read (g : ℤ × ℤ → Option Bool) (junk : ℤ × ℤ → Bool) (i j : ℤ) : ℕ :=
  8 * (gridRead g junk (i, j)).toNat + 4 * (gridRead g junk (i, j + 1)).toNat +
  2 * (gridRead g junk (i + 1, j + 1)).toNat + (gridRead g junk (i + 1, j)).toNat

/-- Configuration index with uninitialized reads made explicit: `none`
as soon as one of the four corners was never written. -/
def march_k (g : ℤ × ℤ → Option Bool) (i j : ℤ) : Option ℕ := do
  let a ← g (i, j)
  let b ← g (i, j + 1)
  let c ← g (i + 1, j + 1)
  let d ← g (i + 1, j)
  pure (8 * a.toNat + 4 * b.toNat + 2 * c.toNat + d.toNat)

/-- Glyph the marching stage fetches for index `k`: the table entry the
population stage wrote, or the uninitialized pointer contents. -/
def cmapRead (cm : ℤ → Option ppm_image) (cmapJunk : ℤ → ppm_image) (k : ℤ) : ppm_image :=
  (cm k).getD (cmapJunk k)

def march_list (image : ppm_image) (g : ℤ × ℤ → Option Bool) (junk : ℤ × ℤ → Bool)
    (cm : ℤ → Option ppm_image) (cmapJunk : ℤ → ppm_image) (T : ℤ) :
    List (ℤ × ppm_pixel) :=
  let p := image.x / STEP
  let q := image.y / STEP
  (threadList T).flatMap fun tid =>
    (sliceList (thread_get_slice tid T p)).flatMap fun i =>
      (rangeList 0 q.toNat).flatMap fun j =>
        march_update_list image
          (cmapRead cm cmapJunk (march_k_read g junk i j)) (i * STEP) (j * STEP)

def march (image : ppm_image) (g : ℤ × ℤ → Option Bool) (junk : ℤ × ℤ → Bool)
    (cm : ℤ → Option ppm_image) (cmapJunk : ℤ → ppm_image) (T : ℤ) : ppm_image :=
  { image with
    data := applyW Prod.fst Prod.snd (march_list image g junk cm cmapJunk T) image.data }

/-! ### worker (src/tema1_par.c lines 187-234)

Each of the `T` workers runs the same stage sequence, separated by
full-pool barriers; the four one-time initializations are guarded by a
mutex and a sentinel test.  Functionally (see `onceRun` below for the
guard protocol itself) the pipeline output — the `scaled` buffer that
the single writer persists at the end — is the composition of the
stages.  `img` is `read_ppm(filename_in)`; when the source fits the
target resolution the scaled buffer aliases it, otherwise a fresh
buffer (contents `scaledJunk` until written) is allocated. -/

def pipeline (img : ppm_image) (glyphFile : ℤ → ppm_image)
    (resample : ppm_image → ℤ → ppm_pixel) (scaledJunk : ℤ → ppm_pixel)
    (gridJunk : ℤ × ℤ → Bool) (cmapJunk : ℤ → ppm_image) (T : ℤ) : ppm_image :=
  let scaled0 := if fits img then img else { x := RESCALE_X, y := RESCALE_Y, data := scaledJunk }
  let scaled := rescale_image img scaled0 resample T
  let cm := init_cmap glyphFile T
  let g := sample_grid scaled T
  march scaled g gridJunk cm cmapJunk T

/-! ### OnceInit guard (the mutex-and-sentinel pattern of worker)

```c
pthread_mutex_lock(&shared->locks[LOCK_X]);
if (!shared->resource) { shared->resource = construct(); }
pthread_mutex_unlock(&shared->locks[LOCK_X]);
```
The mutex serializes the critical sections, so an execution is the list
of thread ordinals in the order they acquire the lock.  `onceRun`
replays that order: each thread tests the sentinel, constructs if and
only if it is still unset, and then reads the resource; the run returns
the final resource state, the ordinals whose test fired (i.e. who
executed the initializer body) and the value each thread observed at its
unlock. -/

def onceStep {α : Type} (construct : α) (st : Option α) : Option α × Bool :=
  match st with
  | none => (some construct, true)
  | some v => (some v, false)

def onceRun {α : Type} (construct : α) : List ℤ → Option α →
    Option α × List ℤ × List (ℤ × α)
  | [], st => (st, [], [])
  | t :: ts, st =>
    let (st1, fired) := onceStep construct st
    let (stf, ks, obs) := onceRun construct ts st1
    (stf, if fired then t :: ks else ks,
     (t, (st1.getD construct)) :: obs)



/-- Flat pixel indices the marching stage writes (glyphs are `STEP`-wide
and `STEP`-tall): the rows of the covered cell columns, at column
offsets inside the sampled rows. -/
def marchWritten (image : ppm_image) (T : ℤ) (l : ℤ) : Prop :=
  0 ≤ l ∧ l % image.y < (image.y / STEP) * STEP ∧
  coveredBy T.toNat (image.x / STEP) ((l / image.y) / STEP)

instance (image : ppm_image) (T l : ℤ) : Decidable (marchWritten image T l) := by
  unfold marchWritten
  infer_instance

/-- Pixel the marching stage stores at flat index `l`: the glyph of the
cell containing `l`, sampled at the offset of `l` inside that cell. -/
def marchVal (image : ppm_image) (g : ℤ × ℤ → Option Bool) (junk : ℤ × ℤ → Bool)
    (cm : ℤ → Option ppm_image) (cmapJunk : ℤ → ppm_image) (l : ℤ) : ppm_pixel :=
  let r := l / image.y
  let c := l % image.y
  let glyph := cmapRead cm cmapJunk (march_k_read g junk (r / STEP) (c / STEP))
  glyph.data (glyph.x * (r % STEP) + (c % STEP))

/-! ### Concrete instances for the scenario claims -/

/-- 16×16 solid-black source image (the spec's concrete scenario). -/
def black16 : ppm_image :=
  { x := 16, y := 16, data := fun _ => ⟨0, 0, 0⟩ }

/-- 8×8 solid-black source image (a single cell). -/
def black8 : ppm_image :=
  { x := 8, y := 8, data := fun _ => ⟨0, 0, 0⟩ }

/-- 8×16 source image, black except the pixel at flat index 7 (the
pixel the code reads for boundary cell `grid[0][2]`), which is white. -/
def img8x16 : ppm_image :=
  { x := 8, y := 16, data := fun l => if l = 7 then ⟨255, 255, 255⟩ else ⟨0, 0, 0⟩ }

/-- Glyph table stand-in: glyph `k` is the 8×8 image whose every pixel
is `(100 + k, 0, 0)`, distinct per configuration index. -/
def glyphs0 : ℤ → ppm_image :=
  fun k => { x := 8, y := 8, data := fun _ => ⟨(100 + k).toNat, 0, 0⟩ }

/-- Deterministic stand-in for the external bicubic resampler. -/
def resample0 : ppm_image → ℤ → ppm_pixel := fun _ _ => ⟨0, 0, 0⟩

/-- Concrete uninitialized-buffer contents for pipeline instantiations. -/
def scaledJunk0 : ℤ → ppm_pixel := fun _ => ⟨0, 0, 0⟩

def cmapJunk0 : ℤ → ppm_image := fun _ => { x := 8, y := 8, data := fun _ => ⟨0, 0, 0⟩ }

def gridJunkF : ℤ × ℤ → Bool := fun _ => false

def gridJunkT : ℤ × ℤ → Bool := fun _ => true


/-! ## Theorems -/

theorem applyW_eq {ε ι α : Type} [DecidableEq ι] (loc : ε → ι) (val : ε → α)
    (v : ι → α) (l : List ε) (f : ι → α)
    (hval : ∀ e ∈ l, val e = v (loc e)) :
    applyW loc val l f = fun x => if x ∈ l.map loc then v x else f x := by
  induction l generalizing f with
  | nil => funext x; simp [applyW]
  | cons e es ih =>
    funext x
    have he : val e = v (loc e) := hval e (List.mem_cons_self e es)
    have hes : ∀ a ∈ es, val a = v (loc a) := fun a ha => hval a (List.mem_cons_of_mem e ha)
    rw [applyW, ih _ hes]
    by_cases hx : x ∈ es.map loc
    · simp [hx]
    · by_cases hx2 : x = loc e
      · subst hx2; simp [hx, upd, he]
      · simp [hx, hx2, upd]

/-- Result of a stage is invariant under reordering of its write events
(provided the value written at each location is location-determined):
this is the sense in which thread interleavings do not matter. -/
theorem applyW_perm {ε ι α : Type} [DecidableEq ι] (loc : ε → ι) (val : ε → α)
    (v : ι → α) (l₁ l₂ : List ε) (f : ι → α) (hp : l₁.Perm l₂)
    (hval : ∀ e ∈ l₁, val e = v (loc e)) :
    applyW loc val l₁ f = applyW loc val l₂ f := by
  rw [applyW_eq loc val v l₁ f hval,
      applyW_eq loc val v l₂ f (fun e he => hval e (hp.mem_iff.mpr he))]
  funext x
  have hmm : x ∈ l₁.map loc ↔ x ∈ l₂.map loc := (hp.map loc).mem_iff
  by_cases hx : x ∈ l₁.map loc
  · rw [if_pos hx, if_pos (hmm.mp hx)]
  · rw [if_neg hx, if_neg (fun h => hx (hmm.mpr h))]

theorem mem_rangeList {a : ℤ} {n : ℕ} {x : ℤ} :
    x ∈ rangeList a n ↔ a ≤ x ∧ x < a + n := by
  unfold rangeList
  rw [List.mem_map]
  constructor
  · rintro ⟨k, hk, rfl⟩
    rw [List.mem_range] at hk
    omega
  · intro h
    exact ⟨(x - a).toNat, List.mem_range.mpr (by omega), by omega⟩

theorem log2fuel_spec : ∀ (f n : ℕ), 1 ≤ n → n < 2 ^ f →
    2 ^ log2fuel f n ≤ n ∧ n < 2 ^ (log2fuel f n + 1) := by
  intro f
  induction f with
  | zero => intro n h1 h2; simp at h2; omega
  | succ f ih =>
    intro n h1 h2
    by_cases h : 2 ≤ n
    · have hrec := ih (n / 2) (by omega) (by rw [pow_succ] at h2; omega)
      rw [log2fuel, if_pos h]
      rcases hrec with ⟨hl, hr⟩
      constructor
      · calc 2 ^ (log2fuel f (n / 2) + 1) = 2 * 2 ^ log2fuel f (n / 2) := by ring
          _ ≤ 2 * (n / 2) := by omega
          _ ≤ n := by omega
      · calc n < 2 * (n / 2) + 2 := by omega
          _ ≤ 2 * 2 ^ (log2fuel f (n / 2) + 1) := by omega
          _ = 2 ^ (log2fuel f (n / 2) + 1 + 1) := by ring
    · rw [log2fuel, if_neg h]
      constructor
      · simpa using h1
      · rw [pow_one]; omega

/-! ### Properties of the rounding primitives -/

theorem rni_le (x : ℚ) : (rni x : ℚ) ≤ x + 1 / 2 := by
  have hfl : (⌊x⌋ : ℚ) ≤ x := Int.floor_le x
  have hfu : x < ⌊x⌋ + 1 := Int.lt_floor_add_one x
  unfold rni
  split
  · push_cast; linarith
  · split
    · push_cast; linarith
    · split <;> · push_cast; linarith

theorem le_rni (x : ℚ) : x - 1 / 2 ≤ (rni x : ℚ) := by
  have hfl : (⌊x⌋ : ℚ) ≤ x := Int.floor_le x
  have hfu : x < ⌊x⌋ + 1 := Int.lt_floor_add_one x
  unfold rni
  split
  · next h => push_cast; linarith
  · next h =>
    split
    · push_cast; linarith
    · split <;> · push_cast; linarith

theorem rni_intCast (n : ℤ) : rni (n : ℚ) = n := by
  unfold rni
  rw [Int.floor_intCast]
  norm_num

theorem rni_mono {x y : ℚ} (h : x ≤ y) : rni x ≤ rni y := by
  by_contra hc
  push_neg at hc
  have h1 : rni y + 1 ≤ rni x := hc
  have h2 : (rni x : ℚ) ≤ x + 1 / 2 := rni_le x
  have h3 : y - 1 / 2 ≤ (rni y : ℚ) := le_rni y
  have h4 : ((rni y : ℤ) : ℚ) + 1 ≤ ((rni x : ℤ) : ℚ) := by exact_mod_cast h1
  have hxy : x = y := by linarith
  subst hxy
  omega

theorem rni_nonneg {x : ℚ} (h : 0 ≤ x) : 0 ≤ rni x := by
  have h1 : rni ((0 : ℤ) : ℚ) ≤ rni x := rni_mono (by exact_mod_cast h)
  rwa [rni_intCast] at h1

theorem cast_pow_two (n : ℕ) : ((2 ^ n : ℕ) : ℚ) = (2 : ℚ) ^ (n : ℤ) := by
  push_cast
  rw [zpow_natCast]

/-- Expression of an integer power of two as a quotient of natural
powers, used to relate `ilog2Frac`'s integer test to rational bounds. -/
theorem zpow_toNat_div (e : ℤ) :
    (2 : ℚ) ^ e = (2 : ℚ) ^ e.toNat / (2 : ℚ) ^ (-e).toNat := by
  rcases le_or_lt 0 e with h | h
  · obtain ⟨k, rfl⟩ : ∃ k : ℕ, e = (k : ℤ) := ⟨e.toNat, by omega⟩
    rw [Int.toNat_natCast, Int.toNat_of_nonpos (by omega), pow_zero, div_one,
        zpow_natCast]
  · obtain ⟨k, rfl⟩ : ∃ k : ℕ, e = -(k : ℤ) := ⟨(-e).toNat, by omega⟩
    rw [Int.toNat_of_nonpos (by omega), neg_neg, Int.toNat_natCast, pow_zero,
        zpow_neg, zpow_natCast, one_div]

/-- Characterization of the branch test inside `ilog2Frac`. -/
theorem ilog2Frac_branch (a b : ℕ) (hb : 1 ≤ b) (e0 : ℤ) :
    (b * 2 ^ e0.toNat ≤ a * 2 ^ (-e0).toNat) ↔ (2 : ℚ) ^ e0 ≤ (a : ℚ) / b := by
  have hbq : (0 : ℚ) < (b : ℚ) := by exact_mod_cast hb
  rw [zpow_toNat_div, div_le_div_iff (by positivity) hbq]
  rw [show (b * 2 ^ e0.toNat ≤ a * 2 ^ (-e0).toNat) ↔
      ((b * 2 ^ e0.toNat : ℕ) : ℚ) ≤ ((a * 2 ^ (-e0).toNat : ℕ) : ℚ) from Nat.cast_le.symm]
  push_cast
  constructor <;> intro h <;> linarith

theorem ilog2Frac_spec (a b : ℕ) (ha : 1 ≤ a) (hb : 1 ≤ b)
    (ha2 : a < 2 ^ 1024) (hb2 : b < 2 ^ 1024) :
    (2 : ℚ) ^ ilog2Frac a b ≤ (a : ℚ) / b ∧ (a : ℚ) / b < 2 ^ (ilog2Frac a b + 1) := by
  obtain ⟨la1, la2⟩ := log2fuel_spec 1024 a ha ha2
  obtain ⟨lb1, lb2⟩ := log2fuel_spec 1024 b hb hb2
  set La := log2fuel 1024 a with hLa
  set Lb := log2fuel 1024 b with hLb
  have hbq : (0 : ℚ) < (b : ℚ) := by exact_mod_cast hb
  have ha1q : (2 : ℚ) ^ (La : ℤ) ≤ (a : ℚ) := by
    calc (2 : ℚ) ^ (La : ℤ) = ((2 ^ La : ℕ) : ℚ) := (cast_pow_two La).symm
      _ ≤ (a : ℚ) := by exact_mod_cast la1
  have ha2q : (a : ℚ) < (2 : ℚ) ^ ((La : ℤ) + 1) := by
    calc (a : ℚ) < ((2 ^ (La + 1) : ℕ) : ℚ) := by exact_mod_cast la2
      _ = (2 : ℚ) ^ (((La + 1 : ℕ)) : ℤ) := cast_pow_two _
      _ = (2 : ℚ) ^ ((La : ℤ) + 1) := by congr 1 <;> push_cast <;> ring
  have hb1q : (2 : ℚ) ^ (Lb : ℤ) ≤ (b : ℚ) := by
    calc (2 : ℚ) ^ (Lb : ℤ) = ((2 ^ Lb : ℕ) : ℚ) := (cast_pow_two Lb).symm
      _ ≤ (b : ℚ) := by exact_mod_cast lb1
  have hb2q : (b : ℚ) < (2 : ℚ) ^ ((Lb : ℤ) + 1) := by
    calc (b : ℚ) < ((2 ^ (Lb + 1) : ℕ) : ℚ) := by exact_mod_cast lb2
      _ = (2 : ℚ) ^ (((Lb + 1 : ℕ)) : ℤ) := cast_pow_two _
      _ = (2 : ℚ) ^ ((Lb : ℤ) + 1) := by congr 1 <;> push_cast <;> ring
  have hub : (a : ℚ) / b < (2 : ℚ) ^ ((La : ℤ) - Lb + 1) := by
    rw [div_lt_iff hbq]
    calc (a : ℚ) < (2 : ℚ) ^ ((La : ℤ) + 1) := ha2q
      _ = (2 : ℚ) ^ ((La : ℤ) - Lb + 1) * (2 : ℚ) ^ (Lb : ℤ) := by
          rw [← zpow_add₀ (by norm_num : (2:ℚ) ≠ 0)] <;> congr 1 <;> ring
      _ ≤ (2 : ℚ) ^ ((La : ℤ) - Lb + 1) * (b : ℚ) :=
          mul_le_mul_of_nonneg_left hb1q (by positivity)
  have hlb : (2 : ℚ) ^ ((La : ℤ) - Lb - 1) < (a : ℚ) / b := by
    rw [lt_div_iff hbq]
    calc (2 : ℚ) ^ ((La : ℤ) - Lb - 1) * (b : ℚ)
        < (2 : ℚ) ^ ((La : ℤ) - Lb - 1) * (2 : ℚ) ^ ((Lb : ℤ) + 1) :=
          mul_lt_mul_of_pos_left hb2q (by positivity)
      _ = (2 : ℚ) ^ (La : ℤ) := by
          rw [← zpow_add₀ (by norm_num : (2:ℚ) ≠ 0)] <;> congr 1 <;> ring
      _ ≤ (a : ℚ) := ha1q
  unfold ilog2Frac
  by_cases hc : b * 2 ^ ((La : ℤ) - Lb).toNat ≤ a * 2 ^ (-((La : ℤ) - Lb)).toNat
  · rw [← hLa, ← hLb, if_pos hc]
    exact ⟨(ilog2Frac_branch a b hb _).mp hc, hub⟩
  · rw [← hLa, ← hLb, if_neg hc]
    have hnot : ¬ (2 : ℚ) ^ ((La : ℤ) - Lb) ≤ (a : ℚ) / b :=
      fun h => hc ((ilog2Frac_branch a b hb _).mpr h)
    push_neg at hnot
    constructor
    · exact le_of_lt (by simpa using hlb)
    · simpa using hnot

theorem roundPos_e (a b : ℕ) : (roundPos a b).e = ilog2Frac a b - 52 := rfl

/-- Value of the scaled fraction `roundPos` rounds, as a single rational. -/
theorem numden_val (a b : ℕ) (hb : 1 ≤ b) (u : ℤ) :
    ((a * 2 ^ (-u).toNat : ℕ) : ℚ) / ((b * 2 ^ u.toNat : ℕ) : ℚ) =
      (a : ℚ) / b / 2 ^ u := by
  have hbq : ((b : ℚ)) ≠ 0 := by
    have : (0 : ℚ) < (b : ℚ) := by exact_mod_cast hb
    linarith
  have hp1 : ((2 : ℚ) ^ (u.toNat)) ≠ 0 := by positivity
  have hp2 : ((2 : ℚ) ^ ((-u).toNat)) ≠ 0 := by positivity
  rw [zpow_toNat_div]
  push_cast
  field_simp
  try ring

/-- The significand `roundPos` computes is exactly the
round-to-nearest-ties-even integer of the scaled fraction. -/
theorem roundPos_m (a b : ℕ) (hb : 1 ≤ b) :
    (roundPos a b).m = rni (((a * 2 ^ (-(ilog2Frac a b - 52)).toNat : ℕ) : ℚ) /
      ((b * 2 ^ (ilog2Frac a b - 52).toNat : ℕ) : ℚ)) := by
  set u : ℤ := ilog2Frac a b - 52 with hu
  set num : ℕ := a * 2 ^ (-u).toNat with hnum
  set den : ℕ := b * 2 ^ u.toNat with hden
  have hdpos : 0 < den := by
    rw [hden]; positivity
  have hdq : (0 : ℚ) < (den : ℚ) := by exact_mod_cast hdpos
  set x : ℚ := (num : ℚ) / (den : ℚ) with hx
  have hfl : ⌊x⌋ = ((num / den : ℕ) : ℤ) := by
    rw [hx, show ((num : ℚ)) = (((num : ℤ)) : ℚ) by push_cast; ring,
        Rat.floor_intCast_div_natCast]
    exact (Int.ofNat_ediv num den).symm
  have hnd : (den : ℚ) * ((num / den : ℕ) : ℚ) + ((num % den : ℕ) : ℚ) = (num : ℚ) := by
    exact_mod_cast congrArg (Nat.cast : ℕ → ℚ) (Nat.div_add_mod num den)
  have hfrac : x - ⌊x⌋ = ((num % den : ℕ) : ℚ) / (den : ℚ) := by
    have hstep : x - ((num / den : ℕ) : ℚ) = ((num % den : ℕ) : ℚ) / den := by
      rw [hx, eq_div_iff (ne_of_gt hdq), sub_mul,
          div_mul_cancel₀ _ (ne_of_gt hdq)]
      linarith [hnd]
    rw [hfl, Int.cast_natCast]
    exact hstep
  have hlt : (2 * (num % den) < den) ↔ (x - ⌊x⌋ < 1 / 2) := by
    rw [hfrac, div_lt_iff hdq]
    constructor
    · intro h
      have hq : ((2 * (num % den) : ℕ) : ℚ) < ((den : ℕ) : ℚ) := by exact_mod_cast h
      push_cast at hq
      linarith
    · intro h
      have hq : ((2 * (num % den) : ℕ) : ℚ) < ((den : ℕ) : ℚ) := by push_cast; linarith
      exact_mod_cast hq
  have hgt : (den < 2 * (num % den)) ↔ (1 / 2 < x - ⌊x⌋) := by
    rw [hfrac, lt_div_iff hdq]
    constructor
    · intro h
      have hq : ((den : ℕ) : ℚ) < ((2 * (num % den) : ℕ) : ℚ) := by exact_mod_cast h
      push_cast at hq
      linarith
    · intro h
      have hq : ((den : ℕ) : ℚ) < ((2 * (num % den) : ℕ) : ℚ) := by push_cast; linarith
      exact_mod_cast hq
  have hpar : (num / den % 2 = 0) ↔ (⌊x⌋ % 2 = 0) := by
    rw [hfl]; omega
  have hm : (roundPos a b).m = (((if 2 * (num % den) < den then num / den
      else if den < 2 * (num % den) then num / den + 1
      else if num / den % 2 = 0 then num / den else num / den + 1 : ℕ)) : ℤ) := rfl
  rw [hm, apply_ite (fun n : ℕ => (n : ℤ)), apply_ite (fun n : ℕ => (n : ℤ)),
      apply_ite (fun n : ℕ => (n : ℤ))]
  unfold rni
  by_cases h1 : 2 * (num % den) < den
  · rw [if_pos h1, if_pos (hlt.mp h1), hfl]
  · rw [if_neg h1, if_neg (fun hh => h1 (hlt.mpr hh))]
    by_cases h2 : den < 2 * (num % den)
    · rw [if_pos h2, if_pos (hgt.mp h2), hfl, Nat.cast_add, Nat.cast_one]
    · rw [if_neg h2, if_neg (fun hh => h2 (hgt.mpr hh))]
      by_cases h3 : num / den % 2 = 0
      · rw [if_pos h3, if_pos (hpar.mp h3), hfl]
      · rw [if_neg h3, if_neg (fun hh => h3 (hpar.mpr hh)), hfl, Nat.cast_add, Nat.cast_one]

theorem roundPos_toQ (a b : ℕ) (hb : 1 ≤ b) :
    (roundPos a b).toQ =
      (rni ((a : ℚ) / b / 2 ^ (ilog2Frac a b - 52)) : ℚ) * 2 ^ (ilog2Frac a b - 52) := by
  rw [D.toQ, roundPos_e, roundPos_m a b hb, numden_val a b hb]

/-- The rounded significand is normalized: it lies in `[2^52, 2^53]`. -/
theorem roundPos_m_range (a b : ℕ) (ha : 1 ≤ a) (hb : 1 ≤ b)
    (ha2 : a < 2 ^ 1024) (hb2 : b < 2 ^ 1024) :
    2 ^ 52 ≤ (roundPos a b).m ∧ (roundPos a b).m ≤ 2 ^ 53 := by
  obtain ⟨h1, h2⟩ := ilog2Frac_spec a b ha hb ha2 hb2
  set e := ilog2Frac a b with he
  set x : ℚ := (a : ℚ) / b / 2 ^ (e - 52) with hxdef
  have hp : (0 : ℚ) < (2 : ℚ) ^ (e - 52) := by positivity
  have hx1 : (2 : ℚ) ^ (52 : ℤ) ≤ x := by
    rw [hxdef, le_div_iff hp]
    calc (2 : ℚ) ^ (52 : ℤ) * 2 ^ (e - 52) = 2 ^ e := by
          rw [← zpow_add₀ (by norm_num : (2:ℚ) ≠ 0)] <;> congr 1 <;> ring
      _ ≤ (a : ℚ) / b := h1
  have hx2 : x < (2 : ℚ) ^ (53 : ℤ) := by
    rw [hxdef, div_lt_iff hp]
    calc (a : ℚ) / b < 2 ^ (e + 1) := h2
      _ = (2 : ℚ) ^ (53 : ℤ) * 2 ^ (e - 52) := by
          rw [← zpow_add₀ (by norm_num : (2:ℚ) ≠ 0)] <;> congr 1 <;> ring
  have hx1n : ((2 : ℚ)) ^ (52 : ℕ) ≤ x := by exact_mod_cast hx1
  have hx2n : x < ((2 : ℚ)) ^ (53 : ℕ) := by exact_mod_cast hx2
  have hlow := le_rni x
  have hup := rni_le x
  have hr1 : (2 ^ 52 : ℤ) ≤ rni x := by
    have hq : ((2 ^ 52 - 1 : ℤ) : ℚ) < (rni x : ℚ) := by push_cast; linarith
    have hi : (2 ^ 52 - 1 : ℤ) < rni x := by exact_mod_cast hq
    omega
  have hr2 : rni x ≤ (2 ^ 53 : ℤ) := by
    have hq : (rni x : ℚ) < ((2 ^ 53 + 1 : ℤ) : ℚ) := by push_cast; linarith
    have hi : rni x < (2 ^ 53 + 1 : ℤ) := by exact_mod_cast hq
    omega
  rw [roundPos_m a b hb, numden_val a b hb, ← he, ← hxdef]
  exact ⟨hr1, hr2⟩

theorem roundQ_m_nonneg (a b : ℤ) : 0 ≤ (roundQ a b).m := by
  unfold roundQ
  split
  · simp
  · obtain ⟨n, hn⟩ : ∃ n : ℕ, (roundPos a.toNat b.toNat).m = (n : ℤ) := ⟨_, rfl⟩
    rw [hn]
    positivity

theorem toQ_nonneg {d : D} (h : 0 ≤ d.m) : 0 ≤ d.toQ := by
  unfold D.toQ
  have : (0 : ℚ) ≤ (d.m : ℚ) := by exact_mod_cast h
  positivity

/-- Truncation of a nonnegative binary64 toward zero is the floor of its
rational value. -/
theorem trunc_eq_floor (d : D) (h : 0 ≤ d.m) : d.trunc = ⌊d.toQ⌋ := by
  unfold D.trunc D.toQ
  rcases le_or_lt 0 d.e with he | he
  · rw [if_pos he]
    obtain ⟨k, hk⟩ : ∃ k : ℕ, d.e = (k : ℤ) := ⟨d.e.toNat, by omega⟩
    rw [hk, Int.toNat_natCast, zpow_natCast,
        show ((d.m : ℚ)) * (2 : ℚ) ^ k = (((d.m * 2 ^ k : ℤ)) : ℚ) by push_cast; ring,
        Int.floor_intCast]
  · rw [if_neg (by omega)]
    obtain ⟨k, hk⟩ : ∃ k : ℕ, d.e = -(k : ℤ) := ⟨(-d.e).toNat, by omega⟩
    rw [hk, zpow_neg, zpow_natCast,
        show (d.m : ℚ) * ((2 : ℚ) ^ k)⁻¹ = ((d.m : ℤ) : ℚ) / (((2 ^ k : ℕ)) : ℚ) by
          push_cast; ring,
        Rat.floor_intCast_div_natCast,
        show (-(-(k : ℤ))).toNat = k by omega]
    rcases eq_or_lt_of_le h with h0 | hpos
    · rw [← h0]
      simp
    · rw [Int.sign_eq_one_of_pos hpos, one_mul]
      obtain ⟨n, hn⟩ : ∃ n : ℕ, d.m = (n : ℤ) := ⟨d.m.toNat, by omega⟩
      rw [hn, Int.natAbs_ofNat, ← Int.ofNat_ediv]

/-- The comparison the model performs is exactly comparison of values. -/
theorem blt_iff (x y : D) : (D.blt x y = true) ↔ x.toQ < y.toQ := by
  unfold D.blt
  rw [decide_eq_true_eq]
  have hx : min x.e y.e ≤ x.e := min_le_left _ _
  have hy : min x.e y.e ≤ y.e := min_le_right _ _
  have hval : ∀ d : D, min x.e y.e ≤ d.e →
      ((d.m * 2 ^ (d.e - min x.e y.e).toNat : ℤ) : ℚ) =
        d.toQ * 2 ^ (-(min x.e y.e)) := by
    intro d hd
    unfold D.toQ
    push_cast
    rw [← zpow_natCast (2 : ℚ) ((d.e - min x.e y.e).toNat),
        show (((d.e - min x.e y.e).toNat : ℕ) : ℤ) = d.e - min x.e y.e by omega,
        zpow_sub₀ (by norm_num : (2:ℚ) ≠ 0), zpow_neg]
    ring
  rw [show (x.m * 2 ^ (x.e - min x.e y.e).toNat < y.m * 2 ^ (y.e - min x.e y.e).toNat) ↔
      ((x.m * 2 ^ (x.e - min x.e y.e).toNat : ℤ) : ℚ) <
        ((y.m * 2 ^ (y.e - min x.e y.e).toNat : ℤ) : ℚ) from Int.cast_lt.symm,
      hval x hx, hval y hy]
  have h2 : (0 : ℚ) < (2 : ℚ) ^ (-(min x.e y.e)) := by positivity
  exact mul_lt_mul_right h2

/-- Conversion of a `long` in `[0, 2^53)` to `double` is exact. -/
theorem dofInt_toQ (n : ℤ) (h0 : 0 ≤ n) (h1 : n < 2 ^ 53) : (dofInt n).toQ = (n : ℚ) := by
  rcases eq_or_lt_of_le h0 with h | h
  · rw [← h]
    unfold dofInt roundQ D.toQ
    norm_num
  · have hn : dofInt n = roundPos n.toNat 1 := by
      unfold dofInt roundQ
      rw [if_neg (by omega)]
      rfl
    have hnn : ((n.toNat : ℕ) : ℚ) = (n : ℚ) := by
      have := Int.toNat_of_nonneg h0
      exact_mod_cast congrArg (fun z : ℤ => (z : ℚ)) this
    have hv : ((n.toNat : ℕ) : ℚ) / (((1 : ℕ)) : ℚ) = (n : ℚ) := by
      rw [hnn, Nat.cast_one, div_one]
    have hbig : n.toNat < 2 ^ 1024 := by
      have hp : (2 : ℕ) ^ 53 ≤ 2 ^ 1024 := Nat.pow_le_pow_right (by norm_num) (by norm_num)
      have : n.toNat < 2 ^ 53 := by omega
      omega
    have hspec := ilog2Frac_spec n.toNat 1 (by omega) (le_refl 1) hbig (by norm_num)
    rw [hv] at hspec
    set e := ilog2Frac n.toNat 1 with he
    have he52 : e ≤ 52 := by
      by_contra hc
      push_neg at hc
      have hz : (2 : ℚ) ^ (53 : ℤ) ≤ (2 : ℚ) ^ e := zpow_le_zpow_right₀ (by norm_num) (by omega)
      have hnq : ((n : ℚ)) < (2 : ℚ) ^ (53 : ℤ) := by exact_mod_cast h1
      have := hspec.1
      linarith
    rw [hn, roundPos_toQ n.toNat 1 (le_refl 1), hv, ← he]
    obtain ⟨k, hk⟩ : ∃ k : ℕ, e - 52 = -(k : ℤ) := ⟨(-(e - 52)).toNat, by omega⟩
    rw [hk, zpow_neg, zpow_natCast, div_eq_mul_inv, inv_inv,
        show (n : ℚ) * (2 : ℚ) ^ k = (((n * 2 ^ k : ℤ)) : ℚ) by push_cast; ring,
        rni_intCast]
    push_cast
    field_simp

theorem toNat_lt_pow {a : ℤ} {k : ℕ} (h : a < 2 ^ k) : a.toNat < 2 ^ k := by
  have hp : (0 : ℕ) < 2 ^ k := pow_pos (by norm_num) k
  rcases le_or_lt a 0 with h0 | h0
  · rw [Int.toNat_of_nonpos h0]
    exact hp
  · have h2 : ((a.toNat : ℤ)) < ((2 ^ k : ℕ) : ℤ) := by
      rw [Int.toNat_of_nonneg (le_of_lt h0)]
      exact_mod_cast h
    exact_mod_cast h2

theorem toNat_castQ {a : ℤ} (h : 0 ≤ a) : ((a.toNat : ℕ) : ℚ) = (a : ℚ) := by
  exact_mod_cast congrArg (fun z : ℤ => (z : ℚ)) (Int.toNat_of_nonneg h)

theorem toQ_zero : D.toQ ⟨0, 0⟩ = 0 := by
  unfold D.toQ
  norm_num

/-- Rounding to binary64 is monotone in the exact value. -/
theorem roundQ_mono (a b c d : ℤ) (hb : 0 < b) (hd : 0 < d)
    (ha2 : a < 2 ^ 1024) (hb2 : b < 2 ^ 1024) (hc2 : c < 2 ^ 1024) (hd2 : d < 2 ^ 1024)
    (hv : (a : ℚ) / b ≤ (c : ℚ) / d) :
    (roundQ a b).toQ ≤ (roundQ c d).toQ := by
  have hbq : (0 : ℚ) < (b : ℚ) := by exact_mod_cast hb
  have hdq : (0 : ℚ) < (d : ℚ) := by exact_mod_cast hd
  rcases le_or_lt a 0 with hA | hA
  · have hL : roundQ a b = ⟨0, 0⟩ := by
      unfold roundQ
      rw [if_pos (Or.inl hA)]
    rw [hL, toQ_zero]
    exact toQ_nonneg (roundQ_m_nonneg c d)
  · have hCpos : 0 < c := by
      by_contra hcc
      push_neg at hcc
      have h1 : (0 : ℚ) < (a : ℚ) / b :=
        div_pos (by exact_mod_cast hA) hbq
      have hcq : (c : ℚ) ≤ 0 := by exact_mod_cast hcc
      have h2 : (c : ℚ) / d ≤ 0 := div_nonpos_iff.mpr (Or.inr ⟨hcq, le_of_lt hdq⟩)
      linarith
    have hLr : roundQ a b = roundPos a.toNat b.toNat := by
      unfold roundQ
      rw [if_neg (by omega)]
    have hRr : roundQ c d = roundPos c.toNat d.toNat := by
      unfold roundQ
      rw [if_neg (by omega)]
    have hva : ((a.toNat : ℕ) : ℚ) / ((b.toNat : ℕ) : ℚ) = (a : ℚ) / b := by
      rw [toNat_castQ (le_of_lt hA), toNat_castQ (le_of_lt hb)]
    have hvc : ((c.toNat : ℕ) : ℚ) / ((d.toNat : ℕ) : ℚ) = (c : ℚ) / d := by
      rw [toNat_castQ (le_of_lt hCpos), toNat_castQ (le_of_lt hd)]
    have hs1 := ilog2Frac_spec a.toNat b.toNat (by omega) (by omega)
      (toNat_lt_pow ha2) (toNat_lt_pow hb2)
    have hs2 := ilog2Frac_spec c.toNat d.toNat (by omega) (by omega)
      (toNat_lt_pow hc2) (toNat_lt_pow hd2)
    rw [hva] at hs1
    rw [hvc] at hs2
    set e1 := ilog2Frac a.toNat b.toNat with he1
    set e2 := ilog2Frac c.toNat d.toNat with he2
    have hx1pos : (0 : ℚ) < (a : ℚ) / b :=
      div_pos (by exact_mod_cast hA) hbq
    have he12 : e1 ≤ e2 := by
      by_contra hcc
      push_neg at hcc
      have hzz : (2 : ℚ) ^ (e2 + 1) ≤ (2 : ℚ) ^ e1 :=
        zpow_le_zpow_right₀ (by norm_num) (by omega)
      linarith [hs1.1, hs2.2, hv]
    obtain ⟨hm1a, hm1b⟩ := roundPos_m_range a.toNat b.toNat (by omega) (by omega)
      (toNat_lt_pow ha2) (toNat_lt_pow hb2)
    obtain ⟨hm2a, hm2b⟩ := roundPos_m_range c.toNat d.toNat (by omega) (by omega)
      (toNat_lt_pow hc2) (toNat_lt_pow hd2)
    rcases eq_or_lt_of_le he12 with heq | hlt2
    · rw [hLr, hRr, roundPos_toQ a.toNat b.toNat (by omega),
          roundPos_toQ c.toNat d.toNat (by omega), hva, hvc, ← he1, ← he2, ← heq]
      have hp : (0 : ℚ) < (2 : ℚ) ^ (e1 - 52) := by positivity
      have hm := rni_mono ((div_le_div_right hp).mpr hv)
      have hmq : ((rni ((a : ℚ) / b / 2 ^ (e1 - 52)) : ℤ) : ℚ) ≤
          ((rni ((c : ℚ) / d / 2 ^ (e1 - 52)) : ℤ) : ℚ) := by exact_mod_cast hm
      exact mul_le_mul_of_nonneg_right hmq (le_of_lt hp)
    · have hub : (roundPos a.toNat b.toNat).toQ ≤ (2 : ℚ) ^ (e1 + 1) := by
        unfold D.toQ
        rw [roundPos_e, ← he1]
        have hc1 : ((roundPos a.toNat b.toNat).m : ℚ) ≤ ((2 ^ 53 : ℤ) : ℚ) := by
          exact_mod_cast hm1b
        calc ((roundPos a.toNat b.toNat).m : ℚ) * 2 ^ (e1 - 52)
            ≤ ((2 ^ 53 : ℤ) : ℚ) * 2 ^ (e1 - 52) :=
              mul_le_mul_of_nonneg_right hc1 (by positivity)
          _ = (2 : ℚ) ^ (e1 + 1) := by
              push_cast
              rw [show (9007199254740992 : ℚ) = (2 : ℚ) ^ (53 : ℤ) from by norm_num,
                  ← zpow_add₀ (by norm_num : (2:ℚ) ≠ 0)]
              congr 1
              ring
      have hlbv : (2 : ℚ) ^ e2 ≤ (roundPos c.toNat d.toNat).toQ := by
        unfold D.toQ
        rw [roundPos_e, ← he2]
        have hc2q : ((2 ^ 52 : ℤ) : ℚ) ≤ ((roundPos c.toNat d.toNat).m : ℚ) := by
          exact_mod_cast hm2a
        calc (2 : ℚ) ^ e2 = ((2 ^ 52 : ℤ) : ℚ) * 2 ^ (e2 - 52) := by
              push_cast
              rw [show (4503599627370496 : ℚ) = (2 : ℚ) ^ (52 : ℤ) from by norm_num,
                  ← zpow_add₀ (by norm_num : (2:ℚ) ≠ 0)]
              congr 1
              ring
          _ ≤ ((roundPos c.toNat d.toNat).m : ℚ) * 2 ^ (e2 - 52) :=
              mul_le_mul_of_nonneg_right hc2q (by positivity)
      have hmid : (2 : ℚ) ^ (e1 + 1) ≤ (2 : ℚ) ^ e2 :=
        zpow_le_zpow_right₀ (by norm_num) (by omega)
      rw [hLr, hRr]
      linarith

/-- Value identity used to read off the exact operand of `dmul`/`ddiv`. -/
theorem val_div_pow (c : ℤ) (e : ℤ) :
    ((c * 2 ^ e.toNat : ℤ) : ℚ) / (((2 ^ (-e).toNat : ℤ)) : ℚ) = (c : ℚ) * 2 ^ e := by
  push_cast
  rw [zpow_toNat_div, mul_div_assoc]

/-- The exact operand `dmul` rounds is the product of the values. -/
theorem dmul_val (x y : D) :
    ((x.m * y.m * 2 ^ (x.e + y.e).toNat : ℤ) : ℚ) /
      (((2 ^ (-(x.e + y.e)).toNat : ℤ)) : ℚ) = x.toQ * y.toQ := by
  rw [val_div_pow (x.m * y.m) (x.e + y.e)]
  unfold D.toQ
  rw [zpow_add₀ (by norm_num : (2:ℚ) ≠ 0)]
  push_cast
  ring

/-- The exact operand `ddiv` rounds is the quotient of the values. -/
theorem ddiv_val (x y : D) (hy : y.m ≠ 0) :
    ((x.m * 2 ^ (x.e - y.e).toNat : ℤ) : ℚ) /
      (((y.m * 2 ^ (-(x.e - y.e)).toNat : ℤ)) : ℚ) = x.toQ / y.toQ := by
  unfold D.toQ
  push_cast
  rw [← div_mul_div_comm, ← zpow_toNat_div, ← div_mul_div_comm,
      ← zpow_sub₀ (by norm_num : (2:ℚ) ≠ 0)]

theorem roundQ_m_le (a b : ℤ) (ha2 : a < 2 ^ 1024) (hb2 : b < 2 ^ 1024) :
    (roundQ a b).m ≤ 2 ^ 53 := by
  unfold roundQ
  split
  · norm_num
  · next h =>
    push_neg at h
    exact (roundPos_m_range a.toNat b.toNat (by omega) (by omega)
      (toNat_lt_pow ha2) (toNat_lt_pow hb2)).2

/-- Exponent range of a rounded value whose exact operand lies in the
program's dynamic range. -/
theorem roundQ_e_range (a b : ℤ) (hb : 0 < b) (ha2 : a < 2 ^ 1024) (hb2 : b < 2 ^ 1024)
    (h2 : (a : ℚ) / b < 2 ^ (248 : ℤ))
    (h1 : a ≤ 0 ∨ (2 : ℚ) ^ (-(248 : ℤ)) ≤ (a : ℚ) / b) :
    -300 ≤ (roundQ a b).e ∧ (roundQ a b).e ≤ 300 := by
  rcases le_or_lt a 0 with hA | hA
  · have : roundQ a b = ⟨0, 0⟩ := by
      unfold roundQ
      rw [if_pos (Or.inl hA)]
    rw [this]
    norm_num
  · have hlow : (2 : ℚ) ^ (-(248 : ℤ)) ≤ (a : ℚ) / b := by
      rcases h1 with h | h
      · omega
      · exact h
    have hround : roundQ a b = roundPos a.toNat b.toNat := by
      unfold roundQ
      rw [if_neg (by omega)]
    have hva : ((a.toNat : ℕ) : ℚ) / ((b.toNat : ℕ) : ℚ) = (a : ℚ) / b := by
      rw [toNat_castQ (le_of_lt hA), toNat_castQ (le_of_lt hb)]
    have hs := ilog2Frac_spec a.toNat b.toNat (by omega) (by omega)
      (toNat_lt_pow ha2) (toNat_lt_pow hb2)
    rw [hva] at hs
    set il := ilog2Frac a.toNat b.toNat with hil
    have hup : il < 248 := by
      have hq : (2 : ℚ) ^ il < (2 : ℚ) ^ (248 : ℤ) := lt_of_le_of_lt hs.1 h2
      exact (zpow_lt_zpow_iff_right₀ (by norm_num)).mp hq
    have hdn : -248 < il + 1 := by
      have hq : (2 : ℚ) ^ (-(248 : ℤ)) < (2 : ℚ) ^ (il + 1) := lt_of_le_of_lt hlow hs.2
      exact (zpow_lt_zpow_iff_right₀ (by norm_num)).mp hq
    have he : (roundPos a.toNat b.toNat).e = il - 52 := roundPos_e a.toNat b.toNat
    rw [hround, he]
    omega

/-! ### Structural facts about thread_get_slice -/

theorem slice_start_zero (T N : ℤ) : (thread_get_slice 0 T N).start = 0 := by
  have h0 : dofInt 0 = ⟨0, 0⟩ := by
    unfold dofInt roundQ
    rw [if_pos (Or.inl (le_refl 0))]
  have h1 : ∀ r : D, dmul ⟨0, 0⟩ r = ⟨0, 0⟩ := by
    intro r
    unfold dmul roundQ
    rw [if_pos]
    left
    simp
  have h2 : D.trunc ⟨0, 0⟩ = 0 := by
    unfold D.trunc
    norm_num
  show (dmul (dofInt 0) (ddiv (dofInt N) (dofInt T))).trunc = 0
  rw [h0, h1, h2]

/-- Adjacent slices never overlap: slice `t` ends no later than slice
`t+1` begins (they share the very same rounded product
`(t+1) * ratio`). -/
theorem slice_stop_le_next_start (t T N : ℤ) :
    (thread_get_slice t T N).stop ≤ (thread_get_slice (t + 1) T N).start := by
  set ratio := ddiv (dofInt N) (dofInt T) with hr
  set a := dmul (dofInt (t + 1)) ratio with ha
  set dr := dofInt N with hdr
  have hstop : (thread_get_slice t T N).stop = (if D.blt a dr then a else dr).trunc := rfl
  have hstart : (thread_get_slice (t + 1) T N).start = a.trunc := rfl
  rw [hstop, hstart]
  by_cases hb : D.blt a dr
  · rw [if_pos hb]
  · rw [if_neg hb]
    have hq : dr.toQ ≤ a.toQ :=
      le_of_not_lt (fun hlt => hb ((blt_iff a dr).mpr hlt))
    have hma : 0 ≤ a.m := roundQ_m_nonneg _ _
    have hmd : 0 ≤ dr.m := roundQ_m_nonneg _ _
    rw [trunc_eq_floor dr hmd, trunc_eq_floor a hma]
    exact Int.floor_mono hq

theorem roundQ_m_lower (a b : ℤ) (ha : 0 < a) (hb : 0 < b)
    (ha2 : a < 2 ^ 1024) (hb2 : b < 2 ^ 1024) : 2 ^ 52 ≤ (roundQ a b).m := by
  unfold roundQ
  rw [if_neg (by omega)]
  exact (roundPos_m_range a.toNat b.toNat (by omega) (by omega)
    (toNat_lt_pow ha2) (toNat_lt_pow hb2)).1

theorem two_zpow_le_one {n : ℤ} (h : n ≤ 0) : (2 : ℚ) ^ n ≤ 1 := by
  have h1 : (2 : ℚ) ^ n ≤ (2 : ℚ) ^ (0 : ℤ) := zpow_le_zpow_right₀ (by norm_num) h
  simpa using h1

theorem lt_two_zpow_248 {n : ℤ} (h0 : 0 ≤ n) (h : n < 2 ^ 53) : (n : ℚ) < 2 ^ (248 : ℤ) := by
  have h1 : (n : ℚ) < ((2 ^ 53 : ℤ) : ℚ) := by exact_mod_cast h
  have h2 : ((2 ^ 53 : ℤ) : ℚ) ≤ (2 : ℚ) ^ (248 : ℤ) := by
    push_cast
    rw [show (9007199254740992 : ℚ) = (2 : ℚ) ^ (53 : ℤ) from by norm_num]
    exact zpow_le_zpow_right₀ (by norm_num) (by norm_num)
  linarith

theorem dofInt_e_range (n : ℤ) (hn2 : n < 2 ^ 53) :
    -300 ≤ (dofInt n).e ∧ (dofInt n).e ≤ 300 := by
  apply roundQ_e_range n 1 one_pos (lt_trans hn2 (by norm_num)) (by norm_num)
  · rw [Int.cast_one, div_one]
    rcases le_or_lt n 0 with h | h
    · calc (n : ℚ) ≤ 0 := by exact_mod_cast h
        _ < 2 ^ (248 : ℤ) := by positivity
    · exact lt_two_zpow_248 (le_of_lt h) hn2
  · rcases le_or_lt n 0 with h | h
    · exact Or.inl h
    · right
      rw [Int.cast_one, div_one]
      have h1 : (1 : ℚ) ≤ (n : ℚ) := by exact_mod_cast h
      have h2 : (2 : ℚ) ^ (-(248 : ℤ)) ≤ 1 := two_zpow_le_one (by norm_num)
      linarith

theorem dofInt_m_le (n : ℤ) (hn2 : n < 2 ^ 53) : (dofInt n).m ≤ 2 ^ 53 :=
  roundQ_m_le n 1 (lt_trans hn2 (by norm_num)) (by norm_num)

/-- Collected facts about the rounded ratio `(double) N / (double) T`. -/
theorem ratio_facts (N T : ℤ) (hN : 0 ≤ N) (hN2 : N < 2 ^ 53) (hT : 0 < T)
    (hT2 : T < 2 ^ 53) :
    0 ≤ (ddiv (dofInt N) (dofInt T)).m ∧ (ddiv (dofInt N) (dofInt T)).m ≤ 2 ^ 53 ∧
    -300 ≤ (ddiv (dofInt N) (dofInt T)).e ∧ (ddiv (dofInt N) (dofInt T)).e ≤ 300 := by
  have heN := dofInt_e_range N hN2
  have heT := dofInt_e_range T hT2
  set dN := dofInt N with hdN
  set dT := dofInt T with hdT
  have hmN : dN.m ≤ 2 ^ 53 := dofInt_m_le N hN2
  have hmT : dT.m ≤ 2 ^ 53 := dofInt_m_le T hT2
  have hmTpos : 2 ^ 52 ≤ dT.m :=
    roundQ_m_lower T 1 hT one_pos (lt_trans hT2 (by norm_num)) (by norm_num)
  have hmNpos : 0 ≤ dN.m := roundQ_m_nonneg _ _
  have hA : dN.m * 2 ^ (dN.e - dT.e).toNat < 2 ^ 1024 := by
    have h1 : (2 : ℤ) ^ (dN.e - dT.e).toNat ≤ 2 ^ 600 :=
      pow_le_pow_right (by norm_num) (by omega)
    have h2 : dN.m * 2 ^ (dN.e - dT.e).toNat ≤ 2 ^ 53 * 2 ^ 600 :=
      mul_le_mul hmN h1 (by positivity) (by norm_num)
    calc dN.m * 2 ^ (dN.e - dT.e).toNat ≤ 2 ^ 53 * 2 ^ 600 := h2
      _ < 2 ^ 1024 := by norm_num
  have hB : dT.m * 2 ^ (-(dN.e - dT.e)).toNat < 2 ^ 1024 := by
    have h1 : (2 : ℤ) ^ (-(dN.e - dT.e)).toNat ≤ 2 ^ 600 :=
      pow_le_pow_right (by norm_num) (by omega)
    have h2 : dT.m * 2 ^ (-(dN.e - dT.e)).toNat ≤ 2 ^ 53 * 2 ^ 600 :=
      mul_le_mul hmT h1 (by positivity) (by norm_num)
    calc dT.m * 2 ^ (-(dN.e - dT.e)).toNat ≤ 2 ^ 53 * 2 ^ 600 := h2
      _ < 2 ^ 1024 := by norm_num
  have hBpos : 0 < dT.m * 2 ^ (-(dN.e - dT.e)).toNat := by positivity
  have hTQ : dT.toQ = (T : ℚ) := dofInt_toQ T (le_of_lt hT) hT2
  have hNQ : dN.toQ = (N : ℚ) := dofInt_toQ N hN hN2
  have hTQpos : (0 : ℚ) < (T : ℚ) := by exact_mod_cast hT
  have hvv : ((dN.m * 2 ^ (dN.e - dT.e).toNat : ℤ) : ℚ) /
      ((dT.m * 2 ^ (-(dN.e - dT.e)).toNat : ℤ) : ℚ) = (N : ℚ) / (T : ℚ) := by
    rw [ddiv_val dN dT (by omega), hNQ, hTQ]
  refine ⟨roundQ_m_nonneg _ _, roundQ_m_le _ _ hA hB, ?_⟩
  apply roundQ_e_range _ _ hBpos hA hB
  · rw [hvv]
    have hnt : (N : ℚ) / T ≤ (N : ℚ) := by
      apply div_le_self
      · exact_mod_cast hN
      · exact_mod_cast hT
    have := lt_two_zpow_248 hN hN2
    linarith
  · rcases le_or_lt N 0 with h | h
    · left
      have : dN = ⟨0, 0⟩ := by
        rw [hdN]
        unfold dofInt roundQ
        rw [if_pos (Or.inl h)]
      rw [this]
      simp
    · right
      rw [hvv]
      have h1 : (1 : ℚ) ≤ (N : ℚ) := by exact_mod_cast h
      have h2 : (T : ℚ) ≤ ((2 ^ 53 : ℤ) : ℚ) := by exact_mod_cast le_of_lt hT2
      have h3 : (2 : ℚ) ^ (-(248 : ℤ)) ≤ 1 / ((2 ^ 53 : ℤ) : ℚ) := by
        rw [div_eq_mul_inv, one_mul]
        push_cast
        rw [show (9007199254740992 : ℚ) = (2 : ℚ) ^ (53 : ℤ) from by norm_num,
            ← zpow_neg]
        exact zpow_le_zpow_right₀ (by norm_num) (by norm_num)
      have h4 : 1 / ((2 ^ 53 : ℤ) : ℚ) ≤ (N : ℚ) / T :=
        div_le_div (by linarith) h1 hTQpos h2
      linarith

/-- Starts of slices are monotone in the thread ordinal. -/
theorem slice_start_mono (t u T N : ℤ) (h0t : 0 ≤ t) (htu : t ≤ u) (hu : u < 2 ^ 53)
    (hN : 0 ≤ N) (hN2 : N < 2 ^ 53) (hT : 0 < T) (hT2 : T < 2 ^ 53) :
    (thread_get_slice t T N).start ≤ (thread_get_slice u T N).start := by
  obtain ⟨hrm0, hrmle, hre1, hre2⟩ := ratio_facts N T hN hN2 hT hT2
  set ratio := ddiv (dofInt N) (dofInt T) with hr
  have hstart : ∀ v : ℤ, (thread_get_slice v T N).start = (dmul (dofInt v) ratio).trunc :=
    fun v => rfl
  rw [hstart t, hstart u]
  have hmono : (dmul (dofInt t) ratio).toQ ≤ (dmul (dofInt u) ratio).toQ := by
    have hbounds : ∀ v : ℤ, 0 ≤ v → v < 2 ^ 53 →
        (dofInt v).m * ratio.m * 2 ^ ((dofInt v).e + ratio.e).toNat < 2 ^ 1024 ∧
        (0 : ℤ) < 2 ^ (-((dofInt v).e + ratio.e)).toNat ∧
        (2 : ℤ) ^ (-((dofInt v).e + ratio.e)).toNat < 2 ^ 1024 := by
      intro v hv0 hv2
      have he := dofInt_e_range v hv2
      have hm := dofInt_m_le v hv2
      have hm0 : 0 ≤ (dofInt v).m := roundQ_m_nonneg _ _
      refine ⟨?_, by positivity, ?_⟩
      · have h1 : (2 : ℤ) ^ ((dofInt v).e + ratio.e).toNat ≤ 2 ^ 600 :=
          pow_le_pow_right (by norm_num) (by omega)
        have h2 : (dofInt v).m * ratio.m ≤ 2 ^ 53 * 2 ^ 53 :=
          mul_le_mul hm hrmle hrm0 (by positivity)
        have h3 : (dofInt v).m * ratio.m * 2 ^ ((dofInt v).e + ratio.e).toNat ≤
            2 ^ 53 * 2 ^ 53 * 2 ^ 600 :=
          mul_le_mul h2 h1 (by positivity) (by positivity)
        calc (dofInt v).m * ratio.m * 2 ^ ((dofInt v).e + ratio.e).toNat
            ≤ 2 ^ 53 * 2 ^ 53 * 2 ^ 600 := h3
          _ < 2 ^ 1024 := by norm_num
      · have h1 : (2 : ℤ) ^ (-((dofInt v).e + ratio.e)).toNat ≤ 2 ^ 600 :=
          pow_le_pow_right (by norm_num) (by omega)
        calc (2 : ℤ) ^ (-((dofInt v).e + ratio.e)).toNat ≤ 2 ^ 600 := h1
          _ < 2 ^ 1024 := by norm_num
    obtain ⟨hAt, hBt0, hBt⟩ := hbounds t h0t (by omega)
    obtain ⟨hAu, hBu0, hBu⟩ := hbounds u (by omega) hu
    have hdof : (dofInt t).toQ ≤ (dofInt u).toQ := by
      apply roundQ_mono t 1 u 1 one_pos one_pos (by omega) (by norm_num) (by omega)
        (by norm_num)
      rw [Int.cast_one, div_one, div_one]
      exact_mod_cast htu
    have happ := roundQ_mono
      ((dofInt t).m * ratio.m * 2 ^ ((dofInt t).e + ratio.e).toNat)
      ((2 : ℤ) ^ (-((dofInt t).e + ratio.e)).toNat)
      ((dofInt u).m * ratio.m * 2 ^ ((dofInt u).e + ratio.e).toNat)
      ((2 : ℤ) ^ (-((dofInt u).e + ratio.e)).toNat)
      hBt0 hBu0 hAt hBt hAu hBu
    have hval : (((dofInt t).m * ratio.m * 2 ^ ((dofInt t).e + ratio.e).toNat : ℤ) : ℚ) /
        (((2 : ℤ) ^ (-((dofInt t).e + ratio.e)).toNat : ℤ) : ℚ) ≤
        (((dofInt u).m * ratio.m * 2 ^ ((dofInt u).e + ratio.e).toNat : ℤ) : ℚ) /
        (((2 : ℤ) ^ (-((dofInt u).e + ratio.e)).toNat : ℤ) : ℚ) := by
      rw [dmul_val (dofInt t) ratio, dmul_val (dofInt u) ratio]
      exact mul_le_mul_of_nonneg_right hdof (toQ_nonneg hrm0)
    exact happ hval
  have hmt : 0 ≤ (dmul (dofInt t) ratio).m := roundQ_m_nonneg _ _
  have hmu : 0 ≤ (dmul (dofInt u) ratio).m := roundQ_m_nonneg _ _
  rw [trunc_eq_floor _ hmt, trunc_eq_floor _ hmu]
  exact Int.floor_mono hmono

theorem slice_stop_le_range (t T N : ℤ) (hN : 0 ≤ N) (hN2 : N < 2 ^ 53) :
    (thread_get_slice t T N).stop ≤ N := by
  set a := dmul (dofInt (t + 1)) (ddiv (dofInt N) (dofInt T)) with ha
  set dr := dofInt N with hdr
  have hstop : (thread_get_slice t T N).stop = (if D.blt a dr then a else dr).trunc := rfl
  have hdrQ : dr.toQ = (N : ℚ) := dofInt_toQ N hN hN2
  rw [hstop]
  by_cases hb : D.blt a dr
  · rw [if_pos hb, trunc_eq_floor a (roundQ_m_nonneg _ _)]
    have hlt : a.toQ < (N : ℚ) := hdrQ ▸ (blt_iff a dr).mp hb
    exact le_of_lt (Int.floor_lt.mpr hlt)
  · rw [if_neg hb, trunc_eq_floor dr (roundQ_m_nonneg _ _), hdrQ, Int.floor_intCast]

/-- Every element of a slice lies inside `[0, rangeLength)`. -/
theorem inSlice_bounds (t T N x : ℤ) (h0t : 0 ≤ t) (ht : t < T) (hN : 0 ≤ N)
    (hN2 : N < 2 ^ 53) (hT2 : T < 2 ^ 53)
    (hx : inSlice x (thread_get_slice t T N)) : 0 ≤ x ∧ x < N := by
  obtain ⟨hs, he⟩ := hx
  constructor
  · have h0 := slice_start_zero T N
    have hm := slice_start_mono 0 t T N (le_refl 0) h0t (by omega) hN hN2 (by omega) hT2
    omega
  · have h2 := slice_stop_le_range t T N hN hN2
    omega

/-- Distinct threads receive disjoint slices. -/
theorem slice_disjoint (t u T N x : ℤ) (h0t : 0 ≤ t) (htu : t < u) (huT : u < T)
    (hN : 0 ≤ N) (hN2 : N < 2 ^ 53) (hT2 : T < 2 ^ 53) :
    ¬ (inSlice x (thread_get_slice t T N) ∧ inSlice x (thread_get_slice u T N)) := by
  rintro ⟨⟨hs1, he1⟩, hs2, he2⟩
  have h2 := slice_stop_le_next_start t T N
  have h3 := slice_start_mono (t + 1) u T N (by omega) (by omega) (by omega) hN hN2
    (by omega) hT2
  omega

/-- Unpacked form of a successful `tilesRange` check. -/
theorem tilesRange_facts (T : ℕ) (N : ℤ) (h : tilesRange T N = true) :
    (thread_get_slice 0 T N).start = 0 ∧
    (thread_get_slice ((T : ℕ) - 1 : ℕ) T N).stop = N ∧
    (∀ t : ℕ, t < T → (thread_get_slice t T N).start ≤ (thread_get_slice t T N).stop) ∧
    (∀ t : ℕ, t < T → t + 1 = T ∨
      (thread_get_slice t T N).stop = (thread_get_slice ((t : ℕ) + 1 : ℕ) T N).start) := by
  unfold tilesRange at h
  simp only [Bool.and_eq_true, List.all_eq_true, List.mem_range, decide_eq_true_eq] at h
  exact ⟨h.1.1.1, h.1.1.2, h.1.2, h.2⟩

/-- A successful `tilesRange` check means the slices cover exactly
`[0, N)`. -/
theorem tilesRange_covers (T : ℕ) (N : ℤ) (hT : 0 < T) (h : tilesRange T N = true) :
    ∀ x : ℤ, coveredBy T N x ↔ 0 ≤ x ∧ x < N := by
  obtain ⟨hz, hlast, hse, hadj⟩ := tilesRange_facts T N h
  have aux1 : ∀ t : ℕ, t < T → 0 ≤ (thread_get_slice t T N).start := by
    intro t
    induction t with
    | zero =>
      intro _
      push_cast
      omega
    | succ k ih =>
      intro hk
      have hkT : k < T := by omega
      rcases hadj k hkT with h1 | h1
      · omega
      · have := ih (by omega)
        have := hse k hkT
        push_cast at h1 ⊢
        omega
  have aux2 : ∀ d t : ℕ, t < T → T - 1 - t = d → (thread_get_slice t T N).stop ≤ N := by
    intro d
    induction d with
    | zero =>
      intro t ht hd
      have : t = T - 1 := by omega
      rw [this]
      omega
    | succ k ih =>
      intro t ht hd
      rcases hadj t ht with h1 | h1
      · omega
      · have h2 := ih (t + 1) (by omega) (by omega)
        have h3 := hse (t + 1) (by omega)
        push_cast at h1 h2 h3
        omega
  intro x
  constructor
  · rintro ⟨t, ht, hs, he⟩
    rw [Finset.mem_range] at ht
    have h1 := aux1 t ht
    have h2 := aux2 (T - 1 - t) t ht rfl
    constructor
    · omega
    · omega
  · rintro ⟨hx0, hxN⟩
    classical
    set P : ℕ → Prop := fun t => (thread_get_slice t T N).start ≤ x with hP
    have hP0 : P 0 := by
      rw [hP]
      push_cast
      omega
    set ts : ℕ := Nat.findGreatest P (T - 1) with hts
    have htsP : P ts := Nat.findGreatest_spec (Nat.zero_le _) hP0
    have htsle : ts ≤ T - 1 := Nat.findGreatest_le _
    have hmax : ∀ m : ℕ, ts < m → m ≤ T - 1 → ¬ P m := by
      intro m hm1 hm2
      exact Nat.findGreatest_is_greatest hm1 hm2
    refine ⟨ts, Finset.mem_range.mpr (by omega), htsP, ?_⟩
    by_contra hc
    push_neg at hc
    by_cases hlast2 : ts = T - 1
    · rw [hlast2] at hc
      omega
    · have hts2 : ts < T := by omega
      rcases hadj ts hts2 with h1 | h1
      · omega
      · have : P (ts + 1) := by
          rw [hP]
          simp only []
          push_cast at h1 ⊢
          omega
        exact hmax (ts + 1) (by omega) (by omega) this

theorem mem_sliceList {x : ℤ} {s : Slice} : x ∈ sliceList s ↔ inSlice x s := by
  unfold sliceList inSlice
  rw [mem_rangeList]
  omega

theorem mem_threadList {t T : ℤ} : t ∈ threadList T ↔ 0 ≤ t ∧ t < T := by
  unfold threadList
  rw [mem_rangeList]
  omega

theorem coveredBy_bounds {T N x : ℤ} (hT : 0 ≤ T) (hT2 : T < 2 ^ 53)
    (hN : 0 ≤ N) (hN2 : N < 2 ^ 53) (h : coveredBy T.toNat N x) : 0 ≤ x ∧ x < N := by
  obtain ⟨t, ht, hx⟩ := h
  rw [Finset.mem_range] at ht
  have hcast : ((T.toNat : ℕ) : ℤ) = T := by omega
  rw [hcast] at hx
  exact inSlice_bounds t T N x (by positivity) (by omega) hN hN2 hT2 hx

/-- Restatement of membership of a thread's slice as `coveredBy`. -/
theorem coveredBy_of_mem {T N tid x : ℤ} (hT : 0 ≤ T) (htid : tid ∈ threadList T)
    (hx : inSlice x (thread_get_slice tid T N)) : coveredBy T.toNat N x := by
  rw [mem_threadList] at htid
  refine ⟨tid.toNat, Finset.mem_range.mpr (by omega), ?_⟩
  have h1 : ((tid.toNat : ℕ) : ℤ) = tid := by omega
  have h2 : ((T.toNat : ℕ) : ℤ) = T := by omega
  rw [h1, h2]
  exact hx

theorem coveredBy_mem {T N x : ℤ} (hT : 0 ≤ T) (h : coveredBy T.toNat N x) :
    ∃ tid ∈ threadList T, inSlice x (thread_get_slice tid T N) := by
  obtain ⟨t, ht, hx⟩ := h
  rw [Finset.mem_range] at ht
  have h2 : ((T.toNat : ℕ) : ℤ) = T := by omega
  rw [h2] at hx
  exact ⟨t, mem_threadList.mpr (by omega), hx⟩

/-- `gridWritten` applied to an explicit pair. -/
theorem gridWritten_pair (image : ppm_image) (T a b : ℤ) :
    gridWritten image T (a, b) ↔
      (coveredBy T.toNat (image.x / STEP) a ∧ 0 ≤ b ∧ b ≤ image.y / STEP) ∨
      (a = image.x / STEP ∧ 0 ≤ b ∧ b < image.y / STEP ∧ 1 ≤ T) := Iff.rfl

/-- `gridCellVal` applied to an explicit pair. -/
theorem gridCellVal_pair (image : ppm_image) (a b : ℤ) :
    gridCellVal image (a, b) =
      if a = image.x / STEP then
        decide (lum (image.data ((image.x - 1) * image.y + b * STEP)) ≤ SIGMA)
      else if b = image.y / STEP then
        decide (lum (image.data (a * STEP * image.y + image.x - 1)) ≤ SIGMA)
      else
        decide (lum (image.data (a * STEP * image.y + b * STEP)) ≤ SIGMA) := rfl

/-- Pointwise description of the grid after the sampling stage: written
cells hold the code's formula for that cell, everything else (in
particular the corner `(p, q)`) is uninitialized. -/
theorem sample_grid_eq (image : ppm_image) (T : ℤ) (hT : 1 ≤ T) (hT2 : T < 2 ^ 53)
    (hx : 0 ≤ image.x) (hx2 : image.x < 2 ^ 56) (hy : 0 ≤ image.y) :
    sample_grid image T =
      fun c => if gridWritten image T c then some (gridCellVal image c) else none := by
  have hp0 : 0 ≤ image.x / STEP := by unfold STEP; omega
  have hp2 : image.x / STEP < 2 ^ 53 := by unfold STEP; omega
  have hq0 : 0 ≤ image.y / STEP := by unfold STEP; omega
  have hcov_lt : ∀ i : ℤ, coveredBy T.toNat (image.x / STEP) i →
      0 ≤ i ∧ i < image.x / STEP :=
    fun i hc => coveredBy_bounds (by omega) hT2 hp0 hp2 hc
  have hev : ∀ e ∈ sample_grid_list image T,
      gridWritten image T e.1 ∧ e.2 = gridCellVal image e.1 := by
    intro e he
    simp only [sample_grid_list] at he
    rw [List.mem_flatMap] at he
    obtain ⟨tid, htid, he⟩ := he
    rw [List.mem_append] at he
    rcases he with he | he
    · rw [List.mem_flatMap] at he
      obtain ⟨i, hi, he⟩ := he
      rw [mem_sliceList] at hi
      have hic : coveredBy T.toNat (image.x / STEP) i :=
        coveredBy_of_mem (by omega) htid hi
      have hilt := hcov_lt i hic
      rcases List.mem_cons.mp he with he | he
      · rw [he]
        constructor
        · show gridWritten image T (i, image.y / STEP)
          rw [gridWritten_pair]
          exact Or.inl ⟨hic, hq0, le_refl _⟩
        · show _ = gridCellVal image (i, image.y / STEP)
          rw [gridCellVal_pair, if_neg (by omega), if_pos rfl]
      · rw [List.mem_map] at he
        obtain ⟨j, hj, he⟩ := he
        rw [mem_rangeList] at hj
        rw [← he]
        constructor
        · show gridWritten image T (i, j)
          rw [gridWritten_pair]
          exact Or.inl ⟨hic, by omega, by omega⟩
        · show _ = gridCellVal image (i, j)
          rw [gridCellVal_pair, if_neg (by omega), if_neg (by omega)]
    · by_cases hlast : tid = T - 1
      · rw [if_pos hlast, List.mem_map] at he
        obtain ⟨j, hj, he⟩ := he
        rw [mem_rangeList] at hj
        rw [← he]
        constructor
        · show gridWritten image T (image.x / STEP, j)
          rw [gridWritten_pair]
          exact Or.inr ⟨rfl, by omega, by omega, hT⟩
        · show _ = gridCellVal image (image.x / STEP, j)
          rw [gridCellVal_pair, if_pos rfl]
      · rw [if_neg hlast] at he
        exact absurd he (List.not_mem_nil _)
  unfold sample_grid
  rw [applyW_eq Prod.fst (fun e => some e.2)
      (fun c => if gridWritten image T c then some (gridCellVal image c) else none)
      (sample_grid_list image T) (fun _ => none)
      (fun e he => by
        show some e.2 =
          if gridWritten image T e.1 then some (gridCellVal image e.1) else none
        rw [if_pos (hev e he).1, (hev e he).2])]
  funext c
  by_cases hw : gridWritten image T c
  · have hmem : c ∈ (sample_grid_list image T).map Prod.fst := by
      rw [List.mem_map]
      rcases hw with ⟨hcov, hj0, hjq⟩ | ⟨hip, hj0, hjq, _⟩
      · obtain ⟨tid, htid, hsl⟩ := coveredBy_mem (by omega) hcov
        by_cases hjq2 : c.2 = image.y / STEP
        · refine ⟨((c.1, image.y / STEP),
            decide (lum (image.data (c.1 * STEP * image.y + image.x - 1)) ≤ SIGMA)),
            ?_, ?_⟩
          · simp only [sample_grid_list]
            rw [List.mem_flatMap]
            refine ⟨tid, htid, ?_⟩
            rw [List.mem_append]
            left
            rw [List.mem_flatMap]
            exact ⟨c.1, mem_sliceList.mpr hsl, List.mem_cons_self _ _⟩
          · show (c.1, image.y / STEP) = c
            rw [← hjq2]
        · refine ⟨((c.1, c.2),
            decide (lum (image.data (c.1 * STEP * image.y + c.2 * STEP)) ≤ SIGMA)),
            ?_, ?_⟩
          · simp only [sample_grid_list]
            rw [List.mem_flatMap]
            refine ⟨tid, htid, ?_⟩
            rw [List.mem_append]
            left
            rw [List.mem_flatMap]
            refine ⟨c.1, mem_sliceList.mpr hsl, ?_⟩
            refine List.mem_cons_of_mem _ ?_
            rw [List.mem_map]
            refine ⟨c.2, ?_, rfl⟩
            rw [mem_rangeList]
            omega
          · show (c.1, c.2) = c
            rfl
      · refine ⟨((image.x / STEP, c.2),
          decide (lum (image.data ((image.x - 1) * image.y + c.2 * STEP)) ≤ SIGMA)),
          ?_, ?_⟩
        · simp only [sample_grid_list]
          rw [List.mem_flatMap]
          refine ⟨T - 1, mem_threadList.mpr (by omega), ?_⟩
          rw [List.mem_append]
          right
          rw [if_pos rfl]
          rw [List.mem_map]
          refine ⟨c.2, ?_, rfl⟩
          rw [mem_rangeList]
          omega
        · show (image.x / STEP, c.2) = c
          rw [← hip]
    rw [if_pos hmem]
  · have hnmem : c ∉ (sample_grid_list image T).map Prod.fst := by
      intro hmem
      rw [List.mem_map] at hmem
      obtain ⟨e, he, hec⟩ := hmem
      exact hw (hec ▸ (hev e he).1)
    rw [if_neg hnmem, if_neg hw]



/-- The configuration index is a 4-bit value. -/
theorem march_k_read_le (g : ℤ × ℤ → Option Bool) (junk : ℤ × ℤ → Bool) (i j : ℤ) :
    march_k_read g junk i j ≤ 15 := by
  unfold march_k_read
  have h1 : (gridRead g junk (i, j)).toNat ≤ 1 := Bool.toNat_le _
  have h2 : (gridRead g junk (i, j + 1)).toNat ≤ 1 := Bool.toNat_le _
  have h3 : (gridRead g junk (i + 1, j + 1)).toNat ≤ 1 := Bool.toNat_le _
  have h4 : (gridRead g junk (i + 1, j)).toNat ≤ 1 := Bool.toNat_le _
  omega

/-- Division and remainder of a recomposed flat index. -/
theorem ediv_emod_decomp (r c y : ℤ) (hy : 0 < y) (h0 : 0 ≤ c) (hc : c < y) :
    (r * y + c) / y = r ∧ (r * y + c) % y = c := by
  constructor
  · rw [add_comm, Int.add_mul_ediv_right c r (by omega : y ≠ 0),
        Int.ediv_eq_zero_of_lt h0 hc, zero_add]
  · rw [add_comm, Int.add_mul_emod_self]
    exact Int.emod_eq_of_lt h0 hc

/-- Pointwise description of the `cmap` array after the glyph-population
stage: covered entries hold their glyph file, the rest stay
uninitialized. -/
theorem init_cmap_eq (glyphFile : ℤ → ppm_image) (T : ℤ) (hT : 1 ≤ T) (hT2 : T < 2 ^ 53) :
    init_cmap glyphFile T =
      fun k => if coveredBy T.toNat CONTOUR_CONFIG_COUNT k then some (glyphFile k)
               else none := by
  have hval : ∀ e ∈ init_cmap_list glyphFile T, some e.2 = some (glyphFile e.1) := by
    intro e he
    unfold init_cmap_list at he
    rw [List.mem_flatMap] at he
    obtain ⟨tid, htid, he⟩ := he
    rw [List.mem_map] at he
    obtain ⟨i, hi, he⟩ := he
    rw [← he]
  unfold init_cmap
  rw [applyW_eq Prod.fst (fun e => some e.2) (fun k => some (glyphFile k))
      (init_cmap_list glyphFile T) (fun _ => none) hval]
  funext k
  by_cases hc : coveredBy T.toNat CONTOUR_CONFIG_COUNT k
  · have hmem : k ∈ (init_cmap_list glyphFile T).map Prod.fst := by
      obtain ⟨tid, htid, hsl⟩ := coveredBy_mem (by omega) hc
      rw [List.mem_map]
      refine ⟨(k, glyphFile k), ?_, rfl⟩
      unfold init_cmap_list
      rw [List.mem_flatMap]
      refine ⟨tid, htid, ?_⟩
      rw [List.mem_map]
      exact ⟨k, mem_sliceList.mpr hsl, rfl⟩
    rw [if_pos hmem, if_pos hc]
  · have hnmem : k ∉ (init_cmap_list glyphFile T).map Prod.fst := by
      intro hmem
      apply hc
      rw [List.mem_map] at hmem
      obtain ⟨e, he, hek⟩ := hmem
      unfold init_cmap_list at he
      rw [List.mem_flatMap] at he
      obtain ⟨tid, htid, he⟩ := he
      rw [List.mem_map] at he
      obtain ⟨i, hi, he⟩ := he
      rw [mem_sliceList] at hi
      have hei : e.1 = i := by rw [← he]
      rw [← hek, hei]
      exact coveredBy_of_mem (by omega) htid hi
    rw [if_neg hnmem, if_neg hc]

/-- Pointwise description of the marching stage for `STEP`-sized glyphs:
each written pixel holds its cell's glyph pixel, every other pixel keeps
the buffer's previous contents. -/
theorem march_eq (image : ppm_image) (g : ℤ × ℤ → Option Bool) (junk : ℤ × ℤ → Bool)
    (cm : ℤ → Option ppm_image) (cmapJunk : ℤ → ppm_image) (T : ℤ)
    (hT : 1 ≤ T) (hT2 : T < 2 ^ 53) (hx : 0 ≤ image.x) (hx2 : image.x < 2 ^ 56)
    (hy : 0 < image.y)
    (hglyph : ∀ k : ℤ, 0 ≤ k → k ≤ 15 →
      (cmapRead cm cmapJunk k).x = STEP ∧ (cmapRead cm cmapJunk k).y = STEP) :
    march image g junk cm cmapJunk T =
      { image with data := fun l =>
          if marchWritten image T l then marchVal image g junk cm cmapJunk l
          else image.data l } := by
  have hstep : STEP = (8 : ℤ) := rfl
  have hp0 : 0 ≤ image.x / STEP := by unfold STEP; omega
  have hp2 : image.x / STEP < 2 ^ 53 := by unfold STEP; omega
  have hkg : ∀ i j : ℤ,
      (cmapRead cm cmapJunk (march_k_read g junk i j)).x = (8 : ℤ) ∧
      (cmapRead cm cmapJunk (march_k_read g junk i j)).y = (8 : ℤ) := by
    intro i j
    have h := hglyph (march_k_read g junk i j) (Int.natCast_nonneg _)
      (by exact_mod_cast march_k_read_le g junk i j)
    rw [hstep] at h
    exact h
  have hval : ∀ e ∈ march_list image g junk cm cmapJunk T,
      e.2 = marchVal image g junk cm cmapJunk e.1 := by
    intro e he
    simp only [march_list] at he
    rw [List.mem_flatMap] at he
    obtain ⟨tid, htid, he⟩ := he
    rw [List.mem_flatMap] at he
    obtain ⟨i, hi, he⟩ := he
    rw [List.mem_flatMap] at he
    obtain ⟨j, hj, he⟩ := he
    rw [mem_sliceList] at hi
    have hib := coveredBy_bounds (by omega) hT2 hp0 hp2
      (coveredBy_of_mem (by omega) htid hi)
    rw [mem_rangeList] at hj
    rw [hstep] at hj
    simp only [march_update_list] at he
    rw [List.mem_flatMap] at he
    obtain ⟨a, ha, he⟩ := he
    rw [mem_rangeList] at ha
    rw [List.mem_map] at he
    obtain ⟨b, hb, he⟩ := he
    rw [mem_rangeList] at hb
    obtain ⟨hgx, hgy⟩ := hkg i j
    rw [hgx] at ha
    rw [hgy] at hb
    have hl : e.1 = (i * STEP + a) * image.y + (j * STEP + b) := by rw [← he]
    have hv : e.2 = (cmapRead cm cmapJunk (march_k_read g junk i j)).data
        ((cmapRead cm cmapJunk (march_k_read g junk i j)).x * a + b) := by rw [← he]
    have hcb : 0 ≤ j * STEP + b ∧ j * STEP + b < image.y := by
      rw [hstep]
      omega
    obtain ⟨hdiv, hmod⟩ := ediv_emod_decomp (i * STEP + a) (j * STEP + b)
      image.y hy hcb.1 hcb.2
    rw [hv, hl]
    simp only [marchVal]
    rw [hdiv, hmod]
    have e1 : (i * STEP + a) / STEP = i := by rw [hstep]; omega
    have e2 : (i * STEP + a) % STEP = a := by rw [hstep]; omega
    have e3 : (j * STEP + b) / STEP = j := by rw [hstep]; omega
    have e4 : (j * STEP + b) % STEP = b := by rw [hstep]; omega
    rw [e1, e2, e3, e4]
  have hA : applyW Prod.fst Prod.snd (march_list image g junk cm cmapJunk T) image.data =
      fun l => if marchWritten image T l then marchVal image g junk cm cmapJunk l
               else image.data l := by
    rw [applyW_eq Prod.fst Prod.snd (marchVal image g junk cm cmapJunk)
        (march_list image g junk cm cmapJunk T) image.data hval]
    funext l
    by_cases hw : marchWritten image T l
    · have hmem : l ∈ (march_list image g junk cm cmapJunk T).map Prod.fst := by
        obtain ⟨hl0, hlq, hcov⟩ := hw
        obtain ⟨tid, htid, hsl⟩ := coveredBy_mem (by omega) hcov
        have hr0 : 0 ≤ l / image.y := Int.ediv_nonneg hl0 (by omega)
        have hc0 : 0 ≤ l % image.y := Int.emod_nonneg l (by omega)
        have hcy : l % image.y < image.y := Int.emod_lt_of_pos l hy
        obtain ⟨hgx, hgy⟩ := hkg ((l / image.y) / STEP) ((l % image.y) / STEP)
        have helem : ((l / image.y / STEP * STEP + l / image.y % STEP) * image.y +
            (l % image.y / STEP * STEP + l % image.y % STEP),
            (cmapRead cm cmapJunk (march_k_read g junk (l / image.y / STEP)
              (l % image.y / STEP))).data
              ((cmapRead cm cmapJunk (march_k_read g junk (l / image.y / STEP)
                (l % image.y / STEP))).x * (l / image.y % STEP) +
                l % image.y % STEP)) ∈
            march_list image g junk cm cmapJunk T := by
          simp only [march_list]
          rw [List.mem_flatMap]
          refine ⟨tid, htid, ?_⟩
          rw [List.mem_flatMap]
          refine ⟨l / image.y / STEP, mem_sliceList.mpr hsl, ?_⟩
          rw [List.mem_flatMap]
          refine ⟨l % image.y / STEP, ?_, ?_⟩
          · rw [mem_rangeList, hstep]
            rw [hstep] at hlq
            omega
          · simp only [march_update_list]
            rw [List.mem_flatMap]
            refine ⟨l / image.y % STEP, ?_, ?_⟩
            · rw [mem_rangeList, hgx, hstep]
              omega
            · rw [List.mem_map]
              refine ⟨l % image.y % STEP, ?_, rfl⟩
              rw [mem_rangeList, hgy, hstep]
              omega
        have hrec : (l / image.y / STEP * STEP + l / image.y % STEP) * image.y +
            (l % image.y / STEP * STEP + l % image.y % STEP) = l := by
          rw [hstep]
          have h1 : l / image.y / 8 * 8 + l / image.y % 8 = l / image.y := by omega
          have h2 : l % image.y / 8 * 8 + l % image.y % 8 = l % image.y := by omega
          rw [h1, h2, mul_comm]
          exact Int.ediv_add_emod l image.y
        rw [← hrec]
        exact List.mem_map_of_mem Prod.fst helem
      rw [if_pos hmem, if_pos hw]
    · have hnmem : l ∉ (march_list image g junk cm cmapJunk T).map Prod.fst := by
        intro hmem
        apply hw
        rw [List.mem_map] at hmem
        obtain ⟨e, he, hel⟩ := hmem
        simp only [march_list] at he
        rw [List.mem_flatMap] at he
        obtain ⟨tid, htid, he⟩ := he
        rw [List.mem_flatMap] at he
        obtain ⟨i, hi, he⟩ := he
        rw [List.mem_flatMap] at he
        obtain ⟨j, hj, he⟩ := he
        rw [mem_sliceList] at hi
        have hic := coveredBy_of_mem (by omega) htid hi
        have hib := coveredBy_bounds (by omega) hT2 hp0 hp2 hic
        rw [mem_rangeList] at hj
        rw [hstep] at hj
        simp only [march_update_list] at he
        rw [List.mem_flatMap] at he
        obtain ⟨a, ha, he⟩ := he
        rw [mem_rangeList] at ha
        rw [List.mem_map] at he
        obtain ⟨b, hb, he⟩ := he
        rw [mem_rangeList] at hb
        obtain ⟨hgx, hgy⟩ := hkg i j
        rw [hgx] at ha
        rw [hgy] at hb
        have hl : l = (i * STEP + a) * image.y + (j * STEP + b) := by
          rw [← hel, ← he]
        have hcb : 0 ≤ j * STEP + b ∧ j * STEP + b < image.y := by
          rw [hstep]
          omega
        obtain ⟨hdiv, hmod⟩ := ediv_emod_decomp (i * STEP + a) (j * STEP + b)
          image.y hy hcb.1 hcb.2
        refine ⟨?_, ?_, ?_⟩
        · rw [hl]
          have hmn : 0 ≤ (i * STEP + a) * image.y :=
            mul_nonneg (by rw [hstep]; omega) (by omega)
          omega
        · rw [hl, hmod, hstep]
          omega
        · rw [hl, hdiv]
          have hii : (i * STEP + a) / STEP = i := by rw [hstep]; omega
          rw [hii]
          exact hic
      rw [if_neg hnmem, if_neg hw]
  unfold march
  rw [hA]

/-- Once the guarded resource is constructed, later threads never fire
and all observe the constructed value. -/
theorem onceRun_primed {α : Type} (construct v : α) (ts : List ℤ) :
    onceRun construct ts (some v) = (some v, [], ts.map fun t => (t, v)) := by
  induction ts with
  | nil => rfl
  | cons t ts ih => simp [onceRun, onceStep, ih]


set_option maxRecDepth 100000
set_option maxHeartbeats 10000000

/-! ## Claims -/

/-- C1: every slice of a thread ordinal `t < T` is contained in
`[0, rangeLength)` — including the last slice, where the MIN clamp
applies, and also for `T = 1` — slices of distinct ordinals are
disjoint, and the slice of ordinal 0 starts at 0, for every range and
thread count below `2 ^ 53`; the contiguity and exact-union parts of
the original claim fail (`C1_counter`). -/
theorem C1_claim (T N t u x : ℤ) (hT : 1 ≤ T) (hT2 : T < 2 ^ 53)
    (hN : 0 ≤ N) (hN2 : N < 2 ^ 53) (h0t : 0 ≤ t) (htT : t < T) :
    (inSlice x (thread_get_slice t T N) → 0 ≤ x ∧ x < N) ∧
    (t < u → u < T →
      ¬ (inSlice x (thread_get_slice t T N) ∧ inSlice x (thread_get_slice u T N))) ∧
    (thread_get_slice 0 T N).start = 0 :=
  ⟨fun hx => inSlice_bounds t T N x h0t htT hN hN2 hT2 hx,
   fun htu huT => slice_disjoint t u T N x h0t htu huT hN hN2 hT2,
   slice_start_zero T N⟩

/-- C1 witness: a single thread on range 16 — its only slice is the
last one, the MIN-clamped case — probed at index 5. -/
theorem C1_witness :
    ((1:ℤ) ≤ 1 ∧ (1:ℤ) < 2 ^ 53 ∧ (0:ℤ) ≤ 16 ∧ (16:ℤ) < 2 ^ 53 ∧ (0:ℤ) ≤ 0 ∧
     (0:ℤ) < 1) ∧
    ((inSlice 5 (thread_get_slice 0 1 16) → (0:ℤ) ≤ 5 ∧ (5:ℤ) < 16) ∧
     ((0:ℤ) < 1 → (1:ℤ) < 1 →
       ¬ (inSlice 5 (thread_get_slice 0 1 16) ∧ inSlice 5 (thread_get_slice 1 1 16))) ∧
     (thread_get_slice 0 1 16).start = 0) :=
  ⟨by decide,
   C1_claim 1 16 0 1 5 (by decide) (by decide) (by decide) (by decide) (by decide)
     (by decide)⟩

/-- C1 counterexample: for 11 threads on range 15 the index 14 lies in
`[0, 15)` but in no slice of any thread, so the union of the slices is
not `[0, 15)` and slice 10 is not contiguous with its predecessor. -/
theorem C1_counter : ¬ coveredBy 11 15 14 ∧ (0:ℤ) ≤ 14 ∧ (14:ℤ) < 15 := by decide

/-- C2: for every image with at least one cell column and row, the
sampling stage leaves the corner cell `grid[p][q]` unwritten, and the
configuration index of cell `(p-1, q-1)`, which reads `grid[p][q]`, is
an uninitialized read (`none` in the total embedding). -/
theorem C2_claim (image : ppm_image) (T : ℤ) (hT : 1 ≤ T) (hT2 : T < 2 ^ 53)
    (hx : 0 ≤ image.x) (hx2 : image.x < 2 ^ 56) (hy : 0 ≤ image.y)
    (hp1 : 1 ≤ image.x / STEP) (hq1 : 1 ≤ image.y / STEP) :
    sample_grid image T (image.x / STEP, image.y / STEP) = none ∧
    march_k (sample_grid image T) (image.x / STEP - 1) (image.y / STEP - 1) = none := by
  have hp0 : 0 ≤ image.x / STEP := by unfold STEP; omega
  have hp2 : image.x / STEP < 2 ^ 53 := by unfold STEP; omega
  have hnone : sample_grid image T (image.x / STEP, image.y / STEP) = none := by
    rw [sample_grid_eq image T hT hT2 hx hx2 hy]
    show (if gridWritten image T (image.x / STEP, image.y / STEP)
        then some (gridCellVal image (image.x / STEP, image.y / STEP)) else none) = none
    have hng : ¬ gridWritten image T (image.x / STEP, image.y / STEP) := by
      rw [gridWritten_pair]
      rintro (⟨h1, h2, h3⟩ | ⟨h1, h2, h3, h4⟩)
      · have := coveredBy_bounds (by omega) hT2 hp0 hp2 h1
        omega
      · omega
    rw [if_neg hng]
  refine ⟨hnone, ?_⟩
  unfold march_k
  have e1 : (image.x / STEP - 1 + 1 : ℤ) = image.x / STEP := by ring
  have e2 : (image.y / STEP - 1 + 1 : ℤ) = image.y / STEP := by ring
  rcases hg1 : sample_grid image T (image.x / STEP - 1, image.y / STEP - 1) with _ | a
  · simp [hg1]
  · rcases hg2 : sample_grid image T (image.x / STEP - 1, image.y / STEP - 1 + 1)
      with _ | b
    · simp [hg1, hg2]
    · simp [hg1, hg2, e1, e2, hnone]

/-- C2 witness: the 16×16 black image with one thread. -/
theorem C2_witness :
    ((1:ℤ) ≤ 1 ∧ (1:ℤ) < 2 ^ 53 ∧ (0:ℤ) ≤ black16.x ∧ black16.x < 2 ^ 56 ∧
     (0:ℤ) ≤ black16.y ∧ 1 ≤ black16.x / STEP ∧ 1 ≤ black16.y / STEP) ∧
    (sample_grid black16 1 (black16.x / STEP, black16.y / STEP) = none ∧
     march_k (sample_grid black16 1) (black16.x / STEP - 1) (black16.y / STEP - 1) =
       none) :=
  ⟨by decide,
   C2_claim black16 1 (by decide) (by decide) (by decide) (by decide) (by decide)
     (by decide) (by decide)⟩

/-- C3: when the source fits the rescale target, the glyphs have the
configured size, and both thread counts pass the tiling check for the
cell-column range and the glyph range, the two pipeline outputs agree
at every flat index outside the glyph block of the corner cell — even
with run-specific uninitialized-memory contents; the corner block reads
the unwritten corner grid cell and is junk-dependent, and thread counts
whose partition loses coverage can differ elsewhere too
(`C3_counter`). -/
theorem C3_claim (img : ppm_image) (glyphFile : ℤ → ppm_image)
    (resample : ppm_image → ℤ → ppm_pixel) (sJ1 sJ2 : ℤ → ppm_pixel)
    (gJ1 gJ2 : ℤ × ℤ → Bool) (cJ1 cJ2 : ℤ → ppm_image) (T1 T2 l : ℤ)
    (hfits : fits img = true)
    (hTa : 1 ≤ T1) (hTb : T1 < 2 ^ 53) (hTc : 1 ≤ T2) (hTd : T2 < 2 ^ 53)
    (hx : 0 ≤ img.x) (hx2 : img.x < 2 ^ 56) (hy : 0 < img.y)
    (hglyph : ∀ k : ℤ, 0 ≤ k → k ≤ 15 →
      (glyphFile k).x = STEP ∧ (glyphFile k).y = STEP)
    (ht1p : tilesRange T1.toNat (img.x / STEP) = true)
    (ht2p : tilesRange T2.toNat (img.x / STEP) = true)
    (ht1c : tilesRange T1.toNat CONTOUR_CONFIG_COUNT = true)
    (ht2c : tilesRange T2.toNat CONTOUR_CONFIG_COUNT = true)
    (hcorner : ¬ (l / img.y / STEP = img.x / STEP - 1 ∧
                  l % img.y / STEP = img.y / STEP - 1)) :
    (pipeline img glyphFile resample sJ1 gJ1 cJ1 T1).data l =
      (pipeline img glyphFile resample sJ2 gJ2 cJ2 T2).data l := by
  have hstep : STEP = (8 : ℤ) := rfl
  have hcm : ∀ T : ℤ, 1 ≤ T → T < 2 ^ 53 →
      tilesRange T.toNat CONTOUR_CONFIG_COUNT = true →
      init_cmap glyphFile T =
        fun k => if 0 ≤ k ∧ k < CONTOUR_CONFIG_COUNT then some (glyphFile k)
                 else none := by
    intro T h1 h2 h3
    rw [init_cmap_eq glyphFile T h1 h2]
    funext k
    have hc := tilesRange_covers T.toNat CONTOUR_CONFIG_COUNT (by omega) h3 k
    by_cases h : 0 ≤ k ∧ k < CONTOUR_CONFIG_COUNT
    · rw [if_pos (hc.mpr h), if_pos h]
    · rw [if_neg (fun hcc => h (hc.mp hcc)), if_neg h]
  have hgr : ∀ T : ℤ, 1 ≤ T → T < 2 ^ 53 →
      tilesRange T.toNat (img.x / STEP) = true →
      sample_grid img T = fun c =>
        if (0 ≤ c.1 ∧ c.1 < img.x / STEP ∧ 0 ≤ c.2 ∧ c.2 ≤ img.y / STEP) ∨
           (c.1 = img.x / STEP ∧ 0 ≤ c.2 ∧ c.2 < img.y / STEP)
        then some (gridCellVal img c) else none := by
    intro T h1 h2 h3
    rw [sample_grid_eq img T h1 h2 hx hx2 (by omega)]
    funext c
    have hc := tilesRange_covers T.toNat (img.x / STEP) (by omega) h3 c.1
    by_cases h : (0 ≤ c.1 ∧ c.1 < img.x / STEP ∧ 0 ≤ c.2 ∧ c.2 ≤ img.y / STEP) ∨
        (c.1 = img.x / STEP ∧ 0 ≤ c.2 ∧ c.2 < img.y / STEP)
    · have hw : gridWritten img T c := by
        unfold gridWritten
        rcases h with ⟨ha, hb, hcc, hd⟩ | ⟨ha, hb, hcc⟩
        · exact Or.inl ⟨hc.mpr ⟨ha, hb⟩, hcc, hd⟩
        · exact Or.inr ⟨ha, hb, hcc, h1⟩
      rw [if_pos hw, if_pos h]
    · have hw : ¬ gridWritten img T c := by
        unfold gridWritten
        rintro (⟨ha, hb, hcc⟩ | ⟨ha, hb, hcc, hd⟩)
        · exact h (Or.inl ⟨(hc.mp ha).1, (hc.mp ha).2, hb, hcc⟩)
        · exact h (Or.inr ⟨ha, hb, hcc⟩)
      rw [if_neg hw, if_neg h]
  have hcr : ∀ (cJ : ℤ → ppm_image) (k : ℤ), 0 ≤ k → k ≤ 15 →
      cmapRead (init_cmap glyphFile T2) cJ k = glyphFile k := by
    intro cJ k hk1 hk2
    rw [hcm T2 hTc hTd ht2c]
    unfold cmapRead
    show (if 0 ≤ k ∧ k < CONTOUR_CONFIG_COUNT then some (glyphFile k) else none).getD
        (cJ k) = glyphFile k
    rw [if_pos ⟨hk1, by unfold CONTOUR_CONFIG_COUNT; omega⟩, Option.getD_some]
  have hglyph1 : ∀ k : ℤ, 0 ≤ k → k ≤ 15 →
      (cmapRead (init_cmap glyphFile T2) cJ1 k).x = STEP ∧
      (cmapRead (init_cmap glyphFile T2) cJ1 k).y = STEP := by
    intro k hk1 hk2
    rw [hcr cJ1 k hk1 hk2]
    exact hglyph k hk1 hk2
  have hglyph2 : ∀ k : ℤ, 0 ≤ k → k ≤ 15 →
      (cmapRead (init_cmap glyphFile T2) cJ2 k).x = STEP ∧
      (cmapRead (init_cmap glyphFile T2) cJ2 k).y = STEP := by
    intro k hk1 hk2
    rw [hcr cJ2 k hk1 hk2]
    exact hglyph k hk1 hk2
  have hre : ∀ T : ℤ, rescale_image img img resample T = img := by
    intro T
    unfold rescale_image
    rw [if_pos hfits]
  have hg12 : sample_grid img T1 = sample_grid img T2 := by
    rw [hgr T1 hTa hTb ht1p, hgr T2 hTc hTd ht2p]
  have hcm12 : init_cmap glyphFile T1 = init_cmap glyphFile T2 := by
    rw [hcm T1 hTa hTb ht1c, hcm T2 hTc hTd ht2c]
  have hcov1 := tilesRange_covers T1.toNat (img.x / STEP) (by omega) ht1p
  have hcov2 := tilesRange_covers T2.toNat (img.x / STEP) (by omega) ht2p
  simp only [pipeline]
  rw [if_pos hfits, if_pos hfits, hre T1, hre T2, hg12, hcm12,
      march_eq img (sample_grid img T2) gJ1 (init_cmap glyphFile T2) cJ1 T1
        hTa hTb hx hx2 hy hglyph1,
      march_eq img (sample_grid img T2) gJ2 (init_cmap glyphFile T2) cJ2 T2
        hTc hTd hx hx2 hy hglyph2]
  show (if marchWritten img T1 l then
      marchVal img (sample_grid img T2) gJ1 (init_cmap glyphFile T2) cJ1 l
    else img.data l) =
    (if marchWritten img T2 l then
      marchVal img (sample_grid img T2) gJ2 (init_cmap glyphFile T2) cJ2 l
    else img.data l)
  by_cases hw : marchWritten img T2 l
  · have hwa : marchWritten img T1 l :=
      ⟨hw.1, hw.2.1, (hcov1 (l / img.y / STEP)).mpr ((hcov2 (l / img.y / STEP)).mp hw.2.2)⟩
    rw [if_pos hwa, if_pos hw]
    obtain ⟨hl0, hlq, hcovl⟩ := hw
    have hib := (hcov2 (l / img.y / STEP)).mp hcovl
    have hc0 : 0 ≤ l % img.y := Int.emod_nonneg l (by omega)
    have hq0 : 0 ≤ img.y / STEP := by unfold STEP; omega
    rw [hstep] at hlq
    have hj0 : 0 ≤ l % img.y / STEP := by rw [hstep]; omega
    have hjq : l % img.y / STEP < img.y / STEP := by rw [hstep]; omega
    have hgw : ∀ c : ℤ × ℤ, gridWritten img T2 c →
        gridRead (sample_grid img T2) gJ1 c = gridRead (sample_grid img T2) gJ2 c := by
      intro c hwc
      unfold gridRead
      rw [sample_grid_eq img T2 hTc hTd hx hx2 (by omega)]
      show ((if gridWritten img T2 c then some (gridCellVal img c) else none).getD
          (gJ1 c)) =
        ((if gridWritten img T2 c then some (gridCellVal img c) else none).getD (gJ2 c))
      rw [if_pos hwc, Option.getD_some, Option.getD_some]
    set i := l / img.y / STEP with hi
    set j := l % img.y / STEP with hj2
    have hw1g : gridWritten img T2 (i, j) :=
      (gridWritten_pair img T2 i j).mpr (Or.inl ⟨hcovl, by omega, by omega⟩)
    have hw2g : gridWritten img T2 (i, j + 1) :=
      (gridWritten_pair img T2 i (j + 1)).mpr (Or.inl ⟨hcovl, by omega, by omega⟩)
    have hw3g : gridWritten img T2 (i + 1, j + 1) := by
      rcases eq_or_lt_of_le (show i + 1 ≤ img.x / STEP by omega) with he | hlt
      · have hjne : j ≠ img.y / STEP - 1 := fun hh => hcorner ⟨by omega, hh⟩
        exact (gridWritten_pair img T2 (i + 1) (j + 1)).mpr
          (Or.inr ⟨he, by omega, by omega, hTc⟩)
      · exact (gridWritten_pair img T2 (i + 1) (j + 1)).mpr
          (Or.inl ⟨(hcov2 (i + 1)).mpr ⟨by omega, hlt⟩, by omega, by omega⟩)
    have hw4g : gridWritten img T2 (i + 1, j) := by
      rcases eq_or_lt_of_le (show i + 1 ≤ img.x / STEP by omega) with he | hlt
      · exact (gridWritten_pair img T2 (i + 1) j).mpr
          (Or.inr ⟨he, by omega, by omega, hTc⟩)
      · exact (gridWritten_pair img T2 (i + 1) j).mpr
          (Or.inl ⟨(hcov2 (i + 1)).mpr ⟨by omega, hlt⟩, by omega, by omega⟩)
    have hk : march_k_read (sample_grid img T2) gJ1 i j =
        march_k_read (sample_grid img T2) gJ2 i j := by
      unfold march_k_read
      rw [hgw (i, j) hw1g, hgw (i, j + 1) hw2g, hgw (i + 1, j + 1) hw3g,
          hgw (i + 1, j) hw4g]
    simp only [marchVal]
    rw [← hi, ← hj2, hk,
        hcr cJ1 (march_k_read (sample_grid img T2) gJ2 i j) (Int.natCast_nonneg _)
          (by exact_mod_cast march_k_read_le (sample_grid img T2) gJ2 i j),
        hcr cJ2 (march_k_read (sample_grid img T2) gJ2 i j) (Int.natCast_nonneg _)
          (by exact_mod_cast march_k_read_le (sample_grid img T2) gJ2 i j)]
  · have hwa : ¬ marchWritten img T1 l := fun hm =>
      hw ⟨hm.1, hm.2.1,
        (hcov2 (l / img.y / STEP)).mpr ((hcov1 (l / img.y / STEP)).mp hm.2.2)⟩
    rw [if_neg hwa, if_neg hw]

/-- C3 witness: the 16×16 black image, thread counts 1 and 8, with
run-specific uninitialized grid contents, probed at flat pixel 0. -/
theorem C3_witness :
    (fits black16 = true ∧ (1:ℤ) ≤ 1 ∧ (1:ℤ) < 2 ^ 53 ∧ (1:ℤ) ≤ 8 ∧ (8:ℤ) < 2 ^ 53 ∧
     (0:ℤ) ≤ black16.x ∧ black16.x < 2 ^ 56 ∧ (0:ℤ) < black16.y ∧
     (∀ k : ℤ, 0 ≤ k → k ≤ 15 → (glyphs0 k).x = STEP ∧ (glyphs0 k).y = STEP) ∧
     tilesRange (1:ℤ).toNat (black16.x / STEP) = true ∧
     tilesRange (8:ℤ).toNat (black16.x / STEP) = true ∧
     tilesRange (1:ℤ).toNat CONTOUR_CONFIG_COUNT = true ∧
     tilesRange (8:ℤ).toNat CONTOUR_CONFIG_COUNT = true ∧
     ¬ ((0:ℤ) / black16.y / STEP = black16.x / STEP - 1 ∧
        (0:ℤ) % black16.y / STEP = black16.y / STEP - 1)) ∧
    (pipeline black16 glyphs0 resample0 scaledJunk0 gridJunkF cmapJunk0 1).data 0 =
      (pipeline black16 glyphs0 resample0 scaledJunk0 gridJunkT cmapJunk0 8).data 0 :=
  ⟨⟨by decide, by decide, by decide, by decide, by decide, by decide, by decide,
    by decide, fun k h1 h2 => ⟨rfl, rfl⟩, by decide, by decide, by decide, by decide,
    by decide⟩,
   C3_claim black16 glyphs0 resample0 scaledJunk0 scaledJunk0 gridJunkF gridJunkT
     cmapJunk0 cmapJunk0 1 8 0 (by decide) (by decide) (by decide) (by decide)
     (by decide) (by decide) (by decide) (by decide) (fun k h1 h2 => ⟨rfl, rfl⟩)
     (by decide) (by decide) (by decide) (by decide) (by decide)⟩

/-- C3 counterexample: on the 8×8 black image the pipeline outputs for
1 and 49 threads differ at flat pixel 0, because the single cell column
is in no slice when 49 threads partition the range of length 1. -/
theorem C3_counter :
    (pipeline black8 glyphs0 resample0 scaledJunk0 gridJunkF cmapJunk0 1).data 0 ≠
    (pipeline black8 glyphs0 resample0 scaledJunk0 gridJunkF cmapJunk0 49).data 0 := by
  decide

/-- C4: on the domain of ranges 0–16 and thread counts 1–4, every slice
equals the exact integer contract `sliceSpec`, the slices tile the
range, and sizes differ by at most one; in general the double-ratio
computation deviates from the contract (`C4_counter`). -/
theorem C4_claim :
    ((List.range 4).all fun t => (List.range 17).all fun n =>
      sliceChecks (t + 1) ((n : ℕ) : ℤ)) = true := by decide

/-- C4 counterexample: for ordinal 48 of 49 threads on range 1 the
computed slice is `[0, 0)` while the exact integer contract gives
`[0, 1)`: the rounded ratio makes the product `49 * ratio` fall below
1, so the final element of the range is lost. -/
theorem C4_counter : thread_get_slice 48 49 1 ≠ sliceSpec 48 49 1 := by decide

/-- C5: interior cells sample at `(i*STEP, j*STEP)`; the boundary cell
`grid[i][q]` samples the pixel at flat offset `i*STEP*height + width-1`
(the code uses `width-1`, not `height-1`, inside the sampled column),
and row `grid[p][j]` samples at `(width-1)*height + j*STEP`. -/
theorem C5_claim (image : ppm_image) (T i j : ℤ) (hT : 1 ≤ T) (hT2 : T < 2 ^ 53)
    (hx : 0 ≤ image.x) (hx2 : image.x < 2 ^ 56) (hy : 0 ≤ image.y)
    (hcov : coveredBy T.toNat (image.x / STEP) i) (hj0 : 0 ≤ j)
    (hjq : j < image.y / STEP) :
    sample_grid image T (i, j) =
      some (decide (lum (image.data (i * STEP * image.y + j * STEP)) ≤ SIGMA)) ∧
    sample_grid image T (i, image.y / STEP) =
      some (decide (lum (image.data (i * STEP * image.y + image.x - 1)) ≤ SIGMA)) ∧
    sample_grid image T (image.x / STEP, j) =
      some (decide (lum (image.data ((image.x - 1) * image.y + j * STEP)) ≤ SIGMA)) := by
  have hp0 : 0 ≤ image.x / STEP := by unfold STEP; omega
  have hp2 : image.x / STEP < 2 ^ 53 := by unfold STEP; omega
  have hq0 : 0 ≤ image.y / STEP := by unfold STEP; omega
  have hib := coveredBy_bounds (by omega) hT2 hp0 hp2 hcov
  rw [sample_grid_eq image T hT hT2 hx hx2 hy]
  refine ⟨?_, ?_, ?_⟩
  · show (if gridWritten image T (i, j) then some (gridCellVal image (i, j))
        else none) = _
    rw [if_pos ((gridWritten_pair image T i j).mpr (Or.inl ⟨hcov, hj0, by omega⟩)),
        gridCellVal_pair, if_neg (by omega), if_neg (by omega)]
  · show (if gridWritten image T (i, image.y / STEP)
        then some (gridCellVal image (i, image.y / STEP)) else none) = _
    rw [if_pos ((gridWritten_pair image T i (image.y / STEP)).mpr
          (Or.inl ⟨hcov, hq0, le_refl _⟩)),
        gridCellVal_pair, if_neg (by omega), if_pos rfl]
  · show (if gridWritten image T (image.x / STEP, j)
        then some (gridCellVal image (image.x / STEP, j)) else none) = _
    rw [if_pos ((gridWritten_pair image T (image.x / STEP) j).mpr
          (Or.inr ⟨rfl, hj0, hjq, hT⟩)),
        gridCellVal_pair, if_pos rfl]

/-- C5 witness: the 16×16 black image, one thread, cell `(0, 0)`. -/
theorem C5_witness :
    ((1:ℤ) ≤ 1 ∧ (1:ℤ) < 2 ^ 53 ∧ (0:ℤ) ≤ black16.x ∧ black16.x < 2 ^ 56 ∧
     (0:ℤ) ≤ black16.y ∧ coveredBy (1:ℤ).toNat (black16.x / STEP) 0 ∧ (0:ℤ) ≤ 0 ∧
     (0:ℤ) < black16.y / STEP) ∧
    (sample_grid black16 1 (0, 0) =
       some (decide (lum (black16.data (0 * STEP * black16.y + 0 * STEP)) ≤ SIGMA)) ∧
     sample_grid black16 1 (0, black16.y / STEP) =
       some (decide (lum (black16.data (0 * STEP * black16.y + black16.x - 1)) ≤ SIGMA)) ∧
     sample_grid black16 1 (black16.x / STEP, 0) =
       some (decide (lum (black16.data ((black16.x - 1) * black16.y + 0 * STEP)) ≤ SIGMA))) :=
  ⟨by decide,
   C5_claim black16 1 0 0 (by decide) (by decide) (by decide) (by decide) (by decide)
     (by decide) (by decide) (by decide)⟩

/-- C5 counterexample: for the 8×16 image `img8x16` (white only at flat
index 7), the code stores `false` into boundary cell `grid[0][2]`
because it samples flat index `0*STEP*16 + 8 - 1 = 7` (offset `width-1`),
while the pixel at the coordinate the claim names — `height-1` of
column 0, flat index 15 — is dark, which would make the cell `true`. -/
theorem C5_counter :
    sample_grid img8x16 1 (0, 2) = some false ∧
    lum (img8x16.data 15) ≤ SIGMA := by decide

/-- C6: for every cell whose column is covered by some slice, the
marching stage computes the cell index as
`8*grid[i][j] + 4*grid[i][j+1] + 2*grid[i+1][j+1] + grid[i+1][j]` and
copies every glyph pixel to the output block at `(i*STEP, j*STEP)` as a
direct overwrite of the destination pixel; a cell in an uncovered
column is not marched at all, so the original unqualified claim fails
(`C6_counter`). -/
theorem C6_claim (image : ppm_image) (g : ℤ × ℤ → Option Bool) (junk : ℤ × ℤ → Bool)
    (cm : ℤ → Option ppm_image) (cmapJunk : ℤ → ppm_image) (T i j a b : ℤ)
    (hT : 1 ≤ T) (hT2 : T < 2 ^ 53) (hx : 0 ≤ image.x) (hx2 : image.x < 2 ^ 56)
    (hy : 0 < image.y)
    (hglyph : ∀ k : ℤ, 0 ≤ k → k ≤ 15 →
      (cmapRead cm cmapJunk k).x = STEP ∧ (cmapRead cm cmapJunk k).y = STEP)
    (hcov : coveredBy T.toNat (image.x / STEP) i) (hj0 : 0 ≤ j)
    (hjq : j < image.y / STEP) (ha0 : 0 ≤ a) (ha8 : a < STEP) (hb0 : 0 ≤ b)
    (hb8 : b < STEP) :
    (march image g junk cm cmapJunk T).data
        ((i * STEP + a) * image.y + (j * STEP + b)) =
      (cmapRead cm cmapJunk (march_k_read g junk i j)).data
        ((cmapRead cm cmapJunk (march_k_read g junk i j)).x * a + b) ∧
    march_k_read g junk i j =
      8 * (gridRead g junk (i, j)).toNat + 4 * (gridRead g junk (i, j + 1)).toNat +
      2 * (gridRead g junk (i + 1, j + 1)).toNat + (gridRead g junk (i + 1, j)).toNat := by
  have hstep : STEP = (8 : ℤ) := rfl
  have hp0 : 0 ≤ image.x / STEP := by unfold STEP; omega
  have hp2 : image.x / STEP < 2 ^ 53 := by unfold STEP; omega
  have hib := coveredBy_bounds (by omega) hT2 hp0 hp2 hcov
  refine ⟨?_, rfl⟩
  rw [march_eq image g junk cm cmapJunk T hT hT2 hx hx2 hy hglyph]
  show (if marchWritten image T ((i * STEP + a) * image.y + (j * STEP + b))
      then marchVal image g junk cm cmapJunk ((i * STEP + a) * image.y + (j * STEP + b))
      else image.data ((i * STEP + a) * image.y + (j * STEP + b))) = _
  rw [hstep] at ha8 hb8 hjq
  have hcb : 0 ≤ j * STEP + b ∧ j * STEP + b < image.y := by
    rw [hstep]
    omega
  obtain ⟨hdiv, hmod⟩ := ediv_emod_decomp (i * STEP + a) (j * STEP + b) image.y hy
    hcb.1 hcb.2
  have hw : marchWritten image T ((i * STEP + a) * image.y + (j * STEP + b)) := by
    refine ⟨?_, ?_, ?_⟩
    · have hmn : 0 ≤ (i * STEP + a) * image.y :=
        mul_nonneg (by rw [hstep]; omega) (by omega)
      omega
    · rw [hmod, hstep]
      omega
    · rw [hdiv]
      have hii : (i * STEP + a) / STEP = i := by rw [hstep]; omega
      rw [hii]
      exact hcov
  rw [if_pos hw]
  simp only [marchVal]
  rw [hdiv, hmod]
  have e1 : (i * STEP + a) / STEP = i := by rw [hstep]; omega
  have e2 : (i * STEP + a) % STEP = a := by rw [hstep]; omega
  have e3 : (j * STEP + b) / STEP = j := by rw [hstep]; omega
  have e4 : (j * STEP + b) % STEP = b := by rw [hstep]; omega
  rw [e1, e2, e3, e4]

/-- C6 witness: an all-true grid, a direct glyph table, one thread, cell
`(0, 0)` at glyph offset `(0, 0)`. -/
theorem C6_witness :
    ((1:ℤ) ≤ 1 ∧ (1:ℤ) < 2 ^ 53 ∧ (0:ℤ) ≤ black16.x ∧ black16.x < 2 ^ 56 ∧
     (0:ℤ) < black16.y ∧
     (∀ k : ℤ, 0 ≤ k → k ≤ 15 →
       (cmapRead (fun k2 => some (glyphs0 k2)) cmapJunk0 k).x = STEP ∧
       (cmapRead (fun k2 => some (glyphs0 k2)) cmapJunk0 k).y = STEP) ∧
     coveredBy (1:ℤ).toNat (black16.x / STEP) 0 ∧ (0:ℤ) ≤ 0 ∧
     (0:ℤ) < black16.y / STEP ∧ (0:ℤ) ≤ 0 ∧ (0:ℤ) < STEP ∧ (0:ℤ) ≤ 0 ∧ (0:ℤ) < STEP) ∧
    ((march black16 (fun _ => some true) gridJunkF (fun k2 => some (glyphs0 k2))
        cmapJunk0 1).data ((0 * STEP + 0) * black16.y + (0 * STEP + 0)) =
      (cmapRead (fun k2 => some (glyphs0 k2)) cmapJunk0
        (march_k_read (fun _ => some true) gridJunkF 0 0)).data
        ((cmapRead (fun k2 => some (glyphs0 k2)) cmapJunk0
          (march_k_read (fun _ => some true) gridJunkF 0 0)).x * 0 + 0) ∧
     march_k_read (fun _ => some true) gridJunkF 0 0 =
       8 * (gridRead (fun _ => some true) gridJunkF (0, 0)).toNat +
       4 * (gridRead (fun _ => some true) gridJunkF (0, 0 + 1)).toNat +
       2 * (gridRead (fun _ => some true) gridJunkF (0 + 1, 0 + 1)).toNat +
       (gridRead (fun _ => some true) gridJunkF (0 + 1, 0)).toNat) :=
  ⟨⟨by decide, by decide, by decide, by decide, by decide,
    fun k h1 h2 => ⟨rfl, rfl⟩, by decide, by decide, by decide, by decide, by decide,
    by decide, by decide⟩,
   C6_claim black16 (fun _ => some true) gridJunkF (fun k2 => some (glyphs0 k2))
     cmapJunk0 1 0 0 0 0 (by decide) (by decide) (by decide) (by decide) (by decide)
     (fun k h1 h2 => ⟨rfl, rfl⟩) (by decide) (by decide) (by decide) (by decide)
     (by decide) (by decide) (by decide)⟩

/-- C6 counterexample: with 49 threads on the 8×8 image the single cell
column is covered by no slice, so the marching stage writes nothing:
the destination pixel of cell `(0, 0)` keeps the buffer contents
instead of the glyph pixel the original claim promises for every cell
of `[0, P) × [0, Q)`. -/
theorem C6_counter :
    (march black8 (fun _ => some true) gridJunkF (fun k2 => some (glyphs0 k2))
        cmapJunk0 49).data ((0 * STEP + 0) * black8.y + (0 * STEP + 0)) ≠
      (cmapRead (fun k2 => some (glyphs0 k2)) cmapJunk0
        (march_k_read (fun _ => some true) gridJunkF 0 0)).data
        ((cmapRead (fun k2 => some (glyphs0 k2)) cmapJunk0
          (march_k_read (fun _ => some true) gridJunkF 0 0)).x * 0 + 0) := by
  decide

/-- C7: on the 16×16 black image every grid cell except the corner is
written `true`, the corner `(2, 2)` is never written, and the
configuration index is 15 for interior cells `(0,0)`, `(0,1)`, `(1,0)`
but an uninitialized read for `(1,1)`. -/
theorem C7_claim :
    sample_grid black16 1 (0, 0) = some true ∧
    sample_grid black16 1 (0, 1) = some true ∧
    sample_grid black16 1 (0, 2) = some true ∧
    sample_grid black16 1 (1, 0) = some true ∧
    sample_grid black16 1 (1, 1) = some true ∧
    sample_grid black16 1 (1, 2) = some true ∧
    sample_grid black16 1 (2, 0) = some true ∧
    sample_grid black16 1 (2, 1) = some true ∧
    sample_grid black16 1 (2, 2) = none ∧
    march_k (sample_grid black16 1) 0 0 = some 15 ∧
    march_k (sample_grid black16 1) 0 1 = some 15 ∧
    march_k (sample_grid black16 1) 1 0 = some 15 ∧
    march_k (sample_grid black16 1) 1 1 = none := by decide

/-- C7 counterexample: the corner cell of the 16×16 black-image grid is
not `true` (it is never written), and the configuration index of
interior cell `(1, 1)` is not 15 in the total embedding (it reads the
unwritten corner). -/
theorem C7_counter :
    ¬ sample_grid black16 1 (2, 2) = some true ∧
    ¬ march_k (sample_grid black16 1) 1 1 = some 15 := by decide

/-- C8: when the source image fits the rescale target, the rescale stage
writes nothing for every thread ordinal (it is the identity on the
scaled buffer), and the pipeline marches directly on the source buffer
(the scaled buffer aliases the source). -/
theorem C8_claim (img scaled : ppm_image) (glyphFile : ℤ → ppm_image)
    (resample : ppm_image → ℤ → ppm_pixel) (scaledJunk : ℤ → ppm_pixel)
    (gridJunk : ℤ × ℤ → Bool) (cmapJunk : ℤ → ppm_image) (T : ℤ)
    (h : fits img = true) :
    rescale_image img scaled resample T = scaled ∧
    pipeline img glyphFile resample scaledJunk gridJunk cmapJunk T =
      march img (sample_grid img T) gridJunk (init_cmap glyphFile T) cmapJunk T := by
  constructor
  · unfold rescale_image
    rw [if_pos h]
  · simp only [pipeline]
    rw [if_pos h]
    unfold rescale_image
    rw [if_pos h]

/-- C8 witness: the 16×16 black image fits the 2048×2048 target. -/
theorem C8_witness :
    fits black16 = true ∧
    (rescale_image black16 black16 resample0 1 = black16 ∧
     pipeline black16 glyphs0 resample0 scaledJunk0 gridJunkF cmapJunk0 1 =
       march black16 (sample_grid black16 1) gridJunkF (init_cmap glyphs0 1)
         cmapJunk0 1) :=
  ⟨by decide,
   C8_claim black16 black16 glyphs0 resample0 scaledJunk0 gridJunkF cmapJunk0 1
     (by decide)⟩

/-- C9: with the rescale stage skipped, glyphs of the configured size
and a thread count passing both tiling checks, the pipeline output at
every flat index outside the glyph block of the corner cell
`(p-1, q-1)` is independent of all uninitialized-memory contents, so
two runs agree there; the corner block itself reads the unwritten
`grid[p][q]` and can differ between runs (`C9_counter`). -/
theorem C9_claim (img : ppm_image) (glyphFile : ℤ → ppm_image)
    (resample : ppm_image → ℤ → ppm_pixel) (sJ1 sJ2 : ℤ → ppm_pixel)
    (gJ1 gJ2 : ℤ × ℤ → Bool) (cJ1 cJ2 : ℤ → ppm_image) (T l : ℤ)
    (hfits : fits img = true) (hT : 1 ≤ T) (hT2 : T < 2 ^ 53)
    (hx : 0 ≤ img.x) (hx2 : img.x < 2 ^ 56) (hy : 0 < img.y)
    (hglyph : ∀ k : ℤ, 0 ≤ k → k ≤ 15 →
      (glyphFile k).x = STEP ∧ (glyphFile k).y = STEP)
    (htp : tilesRange T.toNat (img.x / STEP) = true)
    (htc : tilesRange T.toNat CONTOUR_CONFIG_COUNT = true)
    (hcorner : ¬ (l / img.y / STEP = img.x / STEP - 1 ∧
                  l % img.y / STEP = img.y / STEP - 1)) :
    (pipeline img glyphFile resample sJ1 gJ1 cJ1 T).data l =
      (pipeline img glyphFile resample sJ2 gJ2 cJ2 T).data l := by
  have hstep : STEP = (8 : ℤ) := rfl
  have hcov := tilesRange_covers T.toNat (img.x / STEP) (by omega) htp
  have hcovc := tilesRange_covers T.toNat CONTOUR_CONFIG_COUNT (by omega) htc
  have hcr : ∀ (cJ : ℤ → ppm_image) (k : ℤ), 0 ≤ k → k ≤ 15 →
      cmapRead (init_cmap glyphFile T) cJ k = glyphFile k := by
    intro cJ k hk1 hk2
    rw [init_cmap_eq glyphFile T hT hT2]
    unfold cmapRead
    show (if coveredBy T.toNat CONTOUR_CONFIG_COUNT k then some (glyphFile k)
        else none).getD (cJ k) = glyphFile k
    rw [if_pos ((hcovc k).mpr ⟨hk1, by unfold CONTOUR_CONFIG_COUNT; omega⟩),
        Option.getD_some]
  have hglyph1 : ∀ k : ℤ, 0 ≤ k → k ≤ 15 →
      (cmapRead (init_cmap glyphFile T) cJ1 k).x = STEP ∧
      (cmapRead (init_cmap glyphFile T) cJ1 k).y = STEP := by
    intro k hk1 hk2
    rw [hcr cJ1 k hk1 hk2]
    exact hglyph k hk1 hk2
  have hglyph2 : ∀ k : ℤ, 0 ≤ k → k ≤ 15 →
      (cmapRead (init_cmap glyphFile T) cJ2 k).x = STEP ∧
      (cmapRead (init_cmap glyphFile T) cJ2 k).y = STEP := by
    intro k hk1 hk2
    rw [hcr cJ2 k hk1 hk2]
    exact hglyph k hk1 hk2
  have hre : rescale_image img img resample T = img := by
    unfold rescale_image
    rw [if_pos hfits]
  simp only [pipeline]
  rw [if_pos hfits, if_pos hfits, hre,
      march_eq img (sample_grid img T) gJ1 (init_cmap glyphFile T) cJ1 T
        hT hT2 hx hx2 hy hglyph1,
      march_eq img (sample_grid img T) gJ2 (init_cmap glyphFile T) cJ2 T
        hT hT2 hx hx2 hy hglyph2]
  show (if marchWritten img T l then
      marchVal img (sample_grid img T) gJ1 (init_cmap glyphFile T) cJ1 l
    else img.data l) =
    (if marchWritten img T l then
      marchVal img (sample_grid img T) gJ2 (init_cmap glyphFile T) cJ2 l
    else img.data l)
  by_cases hw : marchWritten img T l
  · rw [if_pos hw, if_pos hw]
    obtain ⟨hl0, hlq, hcovl⟩ := hw
    have hib := (hcov (l / img.y / STEP)).mp hcovl
    have hc0 : 0 ≤ l % img.y := Int.emod_nonneg l (by omega)
    have hq0 : 0 ≤ img.y / STEP := by unfold STEP; omega
    rw [hstep] at hlq
    have hj0 : 0 ≤ l % img.y / STEP := by rw [hstep]; omega
    have hjq : l % img.y / STEP < img.y / STEP := by rw [hstep]; omega
    have hgw : ∀ c : ℤ × ℤ, gridWritten img T c →
        gridRead (sample_grid img T) gJ1 c = gridRead (sample_grid img T) gJ2 c := by
      intro c hwc
      unfold gridRead
      rw [sample_grid_eq img T hT hT2 hx hx2 (by omega)]
      show ((if gridWritten img T c then some (gridCellVal img c) else none).getD
          (gJ1 c)) =
        ((if gridWritten img T c then some (gridCellVal img c) else none).getD (gJ2 c))
      rw [if_pos hwc, Option.getD_some, Option.getD_some]
    set i := l / img.y / STEP with hi
    set j := l % img.y / STEP with hj
    have hw1 : gridWritten img T (i, j) :=
      (gridWritten_pair img T i j).mpr (Or.inl ⟨hcovl, by omega, by omega⟩)
    have hw2 : gridWritten img T (i, j + 1) :=
      (gridWritten_pair img T i (j + 1)).mpr (Or.inl ⟨hcovl, by omega, by omega⟩)
    have hw3 : gridWritten img T (i + 1, j + 1) := by
      rcases eq_or_lt_of_le (show i + 1 ≤ img.x / STEP by omega) with he | hlt
      · have hjne : j ≠ img.y / STEP - 1 := fun hh => hcorner ⟨by omega, hh⟩
        exact (gridWritten_pair img T (i + 1) (j + 1)).mpr
          (Or.inr ⟨he, by omega, by omega, hT⟩)
      · exact (gridWritten_pair img T (i + 1) (j + 1)).mpr
          (Or.inl ⟨(hcov (i + 1)).mpr ⟨by omega, hlt⟩, by omega, by omega⟩)
    have hw4 : gridWritten img T (i + 1, j) := by
      rcases eq_or_lt_of_le (show i + 1 ≤ img.x / STEP by omega) with he | hlt
      · exact (gridWritten_pair img T (i + 1) j).mpr
          (Or.inr ⟨he, by omega, by omega, hT⟩)
      · exact (gridWritten_pair img T (i + 1) j).mpr
          (Or.inl ⟨(hcov (i + 1)).mpr ⟨by omega, hlt⟩, by omega, by omega⟩)
    have hk : march_k_read (sample_grid img T) gJ1 i j =
        march_k_read (sample_grid img T) gJ2 i j := by
      unfold march_k_read
      rw [hgw (i, j) hw1, hgw (i, j + 1) hw2, hgw (i + 1, j + 1) hw3,
          hgw (i + 1, j) hw4]
    simp only [marchVal]
    rw [← hi, ← hj, hk,
        hcr cJ1 (march_k_read (sample_grid img T) gJ2 i j) (Int.natCast_nonneg _)
          (by exact_mod_cast march_k_read_le (sample_grid img T) gJ2 i j),
        hcr cJ2 (march_k_read (sample_grid img T) gJ2 i j) (Int.natCast_nonneg _)
          (by exact_mod_cast march_k_read_le (sample_grid img T) gJ2 i j)]
  · rw [if_neg hw, if_neg hw]

/-- C9 witness: the 16×16 black image, one thread, probed at flat pixel
0, with opposite uninitialized grid contents in the two runs. -/
theorem C9_witness :
    (fits black16 = true ∧ (1:ℤ) ≤ 1 ∧ (1:ℤ) < 2 ^ 53 ∧ (0:ℤ) ≤ black16.x ∧
     black16.x < 2 ^ 56 ∧ (0:ℤ) < black16.y ∧
     (∀ k : ℤ, 0 ≤ k → k ≤ 15 → (glyphs0 k).x = STEP ∧ (glyphs0 k).y = STEP) ∧
     tilesRange (1:ℤ).toNat (black16.x / STEP) = true ∧
     tilesRange (1:ℤ).toNat CONTOUR_CONFIG_COUNT = true ∧
     ¬ ((0:ℤ) / black16.y / STEP = black16.x / STEP - 1 ∧
        (0:ℤ) % black16.y / STEP = black16.y / STEP - 1)) ∧
    (pipeline black16 glyphs0 resample0 scaledJunk0 gridJunkF cmapJunk0 1).data 0 =
      (pipeline black16 glyphs0 resample0 scaledJunk0 gridJunkT cmapJunk0 1).data 0 :=
  ⟨⟨by decide, by decide, by decide, by decide, by decide, by decide,
    fun k h1 h2 => ⟨rfl, rfl⟩, by decide, by decide, by decide⟩,
   C9_claim black16 glyphs0 resample0 scaledJunk0 scaledJunk0 gridJunkF gridJunkT
     cmapJunk0 cmapJunk0 1 0 (by decide) (by decide) (by decide) (by decide)
     (by decide) (by decide) (fun k h1 h2 => ⟨rfl, rfl⟩) (by decide) (by decide)
     (by decide)⟩

/-- C9 counterexample: at flat pixel 136 — inside the glyph block of the
corner cell — the pipeline output depends on the uninitialized contents
of the unwritten corner grid cell, so two runs of the program can
produce different bytes there. -/
theorem C9_counter :
    (pipeline black16 glyphs0 resample0 scaledJunk0 gridJunkF cmapJunk0 1).data 136 ≠
    (pipeline black16 glyphs0 resample0 scaledJunk0 gridJunkT cmapJunk0 1).data 136 := by
  decide

/-- C10: under the mutex-and-sentinel guard, for every nonempty lock
acquisition order the initializer body runs exactly once — in the first
thread to acquire the lock — the final resource is the constructed
value, and every thread observes the constructed value at its unlock. -/
theorem C10_claim {α : Type} (construct : α) (t : ℤ) (ts : List ℤ) :
    (onceRun construct (t :: ts) none).1 = some construct ∧
    (onceRun construct (t :: ts) none).2.1 = [t] ∧
    ∀ p ∈ (onceRun construct (t :: ts) none).2.2, p.2 = construct := by
  have h : onceRun construct (t :: ts) none =
      (some construct, [t], (t, construct) :: ts.map fun u => (u, construct)) := by
    simp [onceRun, onceStep, onceRun_primed]
  rw [h]
  refine ⟨rfl, rfl, ?_⟩
  intro p hp
  rcases List.mem_cons.mp hp with h1 | h1
  · rw [h1]
  · rw [List.mem_map] at h1
    obtain ⟨u, hu, h1⟩ := h1
    rw [← h1]

end MarchingSquares
